import Mathlib

/-!
# The layered undo stack of `b1/session/undo_stack.hpp`

A shallow embedding of `eosio::session::undo_stack<Session>` and the properties of its
operations (`push`, `squash`, `undo`, `commit`, `revision`, `top`, `bottom`).

* The stack object is the pair of its members `m_revision` and `m_sessions`; the member
  `m_head` is a pointer that is never reassigned, so a parent link to it is the constant
  `parent_ref.head`.
* `m_revision` is an `int64_t`.  It is embedded as an `Int`.  `push`, `squash` and `undo`
  move it by `+ 1` and `- 1` as an integer, which is what `++` and `--` do while they do not
  overflow; `push_int64`, `squash_int64` and `undo_int64` are the same members with the
  counter in two's complement, where `++` at `INT64_MAX` stores `INT64_MIN`.  The two agree
  as long as no `push()` is called at `INT64_MAX` (`run_int64_eq`).  The one expression of the
  class that mixes `int64_t` with `size_t`, in `commit`, is computed modulo `2 ^ 64` as the
  language defines it.
* Every operation returns, next to the new stack, the calls it made on sessions, in order.
* `m_sessions[i]` with `i` outside the deque has no defined behaviour; it is the fault
  `fault.out_of_range`.
-/

namespace eosio.session

/-! ## Sessions -/

/-- The target of a session's parent pointer: null after `detach`, the head, or the session
stored at an address of the deque. -/
inductive parent_ref where
  | null : parent_ref
  | head : parent_ref
  | session (addr : Nat) : parent_ref
  deriving DecidableEq, Repr

/-- Modelled from the spec: the class `session<Session>` of `b1/session/session.hpp`, of which
the stack uses the constructor from a parent, `commit()`, `detach()`, `attach(parent)` and
`undo()`.  The stack only manages the linkage of a session, so a session is its address in
the deque (its identity: the deque never moves an element) and its parent link; the key-value
contents are not part of the stack's bookkeeping. -/
structure session_type where
  addr : Nat
  parent : parent_ref
  deriving DecidableEq, Repr

namespace session_type

/-- Modelled from the spec: `detach()` of `b1/session/session.hpp` severs the parent link
without folding anything into the parent. -/
def detach (x : session_type) : session_type := { x with parent := parent_ref.null }

/-- Modelled from the spec: `attach(parent)` of `b1/session/session.hpp` re-links the session
onto a new parent. -/
def attach (x : session_type) (p : parent_ref) : session_type := { x with parent := p }

end session_type

/-- A call the stack makes on a session.  The session is recorded as it is when the call is
made, so a `commit` carries the parent the changes are folded into. -/
inductive call where
  | construct (x : session_type) : call
  | commit (x : session_type) : call
  | detach (x : session_type) : call
  | attach (x : session_type) (p : parent_ref) : call
  | undo (x : session_type) : call
  deriving DecidableEq, Repr

/-- Whether a call is a `commit()`. -/
def call.is_commit : call → Bool
  | call.commit _ => true
  | _ => false

/-! ## Machine integers -/

/-- Conversion of an integer to `uint64_t` (`size_t`): the value modulo `2 ^ 64`. -/
def as_uint64 (x : Int) : Int := x % 2 ^ 64

/-- Conversion of an integer to `int64_t`: the representative of its class modulo `2 ^ 64`
in `[-2 ^ 63, 2 ^ 63)`. -/
def as_int64 (x : Int) : Int :=
  if x % 2 ^ 64 < 2 ^ 63 then x % 2 ^ 64 else x % 2 ^ 64 - 2 ^ 64

/-- The values of `int64_t`. -/
def is_int64 (x : Int) : Prop := -2 ^ 63 ≤ x ∧ x < 2 ^ 63

instance (x : Int) : Decidable (is_int64 x) := by
  unfold is_int64; exact inferInstance

/-! ## The stack -/

/-- The data members of `undo_stack<Session>`: the revision counter and the deque of pending
sessions, bottom first. -/
structure undo_stack where
  m_revision : Int
  m_sessions : List session_type
  deriving DecidableEq, Repr

/-- An access outside the deque. -/
inductive fault where
  | out_of_range (index size : Nat) : fault
  deriving DecidableEq, Repr

/-- What an operation leaves: the stack after it and the calls it made on sessions. -/
structure outcome where
  stack : undo_stack
  calls : List call
  deriving DecidableEq, Repr

/-- What `top()` and `bottom()` return, `std::variant<Session*, session_type*>`. -/
inductive element_type where
  | head : element_type
  | session (x : session_type) : element_type
  deriving DecidableEq, Repr

/-- The address `emplace_back` constructs the new element at: one that no element of the
deque occupies. -/
def fresh_addr (l : List session_type) : Nat := (l.map session_type.addr).foldr max 0 + 1

namespace undo_stack

/-- The stack `undo_stack(Session& head)` constructs: revision `0`, no session. -/
def init : undo_stack := { m_revision := 0, m_sessions := [] }

/-- The member `empty()`. -/
def empty (s : undo_stack) : Bool := s.m_sessions.isEmpty

/-- The member `size()`. -/
def size (s : undo_stack) : Nat := s.m_sessions.length

/-- The member `revision()`. -/
def revision (s : undo_stack) : Int := s.m_revision

/-- The member `push()`. -/
def push (s : undo_stack) : outcome :=
  let x : session_type :=
    match s.m_sessions.getLast? with
    | none => { addr := fresh_addr s.m_sessions, parent := parent_ref.head }
    | some back => { addr := fresh_addr s.m_sessions, parent := parent_ref.session back.addr }
  { stack := { m_revision := s.m_revision + 1, m_sessions := s.m_sessions ++ [x] },
    calls := [call.construct x] }

/-- The member `squash()`. -/
def squash (s : undo_stack) : outcome :=
  match s.m_sessions.getLast? with
  | none => { stack := s, calls := [] }
  | some back =>
    { stack := { m_revision := s.m_revision - 1, m_sessions := s.m_sessions.dropLast },
      calls := [call.commit back, call.detach back] }

/-- The member `undo()`. -/
def undo (s : undo_stack) : outcome :=
  match s.m_sessions.getLast? with
  | none => { stack := s, calls := [] }
  | some back =>
    { stack := { m_revision := s.m_revision - 1, m_sessions := s.m_sessions.dropLast },
      calls := [call.detach back] }

/-- The value `static_cast<int64_t>(m_revision - m_sessions.size() + 1)` of `commit`: the
counter is converted to `uint64_t`, the subtraction and the addition are modulo `2 ^ 64`. -/
def initial_revision (m_revision : Int) (size : Nat) : Int :=
  as_int64 (as_uint64 (as_uint64 (as_uint64 m_revision - as_uint64 size) + 1))

/-- The loop `for (int64_t i = start_index; i >= 0; --i) { m_sessions[i].commit(); }` from
`i` on, for `i >= 0`: the calls it makes, or the fault of an access outside the deque. -/
def commit_loop (sessions : List session_type) : Nat → Except fault (List call)
  | 0 =>
    match sessions[0]? with
    | none => Except.error (fault.out_of_range 0 sessions.length)
    | some x => Except.ok [call.commit x]
  | i + 1 =>
    match sessions[i + 1]? with
    | none => Except.error (fault.out_of_range (i + 1) sessions.length)
    | some x =>
      match commit_loop sessions i with
      | Except.error e => Except.error e
      | Except.ok cs => Except.ok (call.commit x :: cs)

/-- The member `commit(int64_t revision)`. -/
def commit (s : undo_stack) (revision : Int) : Except fault outcome :=
  if s.m_sessions.isEmpty then Except.ok { stack := s, calls := [] }
  else
    let revision := min revision s.m_revision
    let initial_revision := initial_revision s.m_revision s.m_sessions.length
    if initial_revision > revision then Except.ok { stack := s, calls := [] }
    else
      let start_index := revision - initial_revision + 1
      match (if 0 ≤ start_index then commit_loop s.m_sessions start_index.toNat
             else Except.ok []) with
      | Except.error e => Except.error e
      | Except.ok cs =>
        match s.m_sessions.drop start_index.toNat with
        | [] => Except.ok { stack := { s with m_sessions := [] }, calls := cs }
        | front :: rest =>
          Except.ok
            { stack := { s with m_sessions := front.attach parent_ref.head :: rest },
              calls := cs ++ [call.attach front parent_ref.head] }

/-- The member `revision(int64_t revision)`, the setter. -/
def set_revision (s : undo_stack) (revision : Int) : undo_stack :=
  if !s.empty then s
  else if revision ≤ s.m_revision then s
  else { s with m_revision := revision }

/-- The member `top()`. -/
def top (s : undo_stack) : element_type :=
  match s.m_sessions.getLast? with
  | some back => element_type.session back
  | none => element_type.head

/-- The member `bottom()`. -/
def bottom (s : undo_stack) : element_type :=
  match s.m_sessions.head? with
  | some front => element_type.session front
  | none => element_type.head

end undo_stack

/-! ## Sequences of calls -/

/-- A call of a public member that changes the stack. -/
inductive op where
  | push : op
  | undo : op
  | squash : op
  | commit (revision : Int) : op
  | revision (revision : Int) : op
  deriving DecidableEq, Repr

/-- Whether a call is a call of the setter `revision(v)`. -/
def op.is_revision : op → Bool
  | op.revision _ => true
  | _ => false

/-- One call on the stack. -/
def step (s : undo_stack) : op → Except fault outcome
  | op.push => Except.ok s.push
  | op.undo => Except.ok s.undo
  | op.squash => Except.ok s.squash
  | op.commit t => s.commit t
  | op.revision v => Except.ok { stack := s.set_revision v, calls := [] }

/-- A sequence of calls, one after the other; the calls made on sessions are collected in
order.  The sequence stops at the first fault. -/
def run (s : undo_stack) : List op → Except fault outcome
  | [] => Except.ok { stack := s, calls := [] }
  | o :: os =>
    match step s o with
    | Except.error e => Except.error e
    | Except.ok r =>
      match run r.stack os with
      | Except.error e => Except.error e
      | Except.ok r' => Except.ok { stack := r'.stack, calls := r.calls ++ r'.calls }

/-- The stack after `n` consecutive calls of `push()`. -/
def push_n : Nat → undo_stack → undo_stack
  | 0, s => s
  | n + 1, s => push_n n s.push.stack

/-- The number of `push()` calls of a sequence. -/
def pushes (os : List op) : Nat := os.count op.push

/-- The number of `undo()` and `squash()` calls of a sequence, run from `s`, that find the
stack non-empty, and so remove a session. -/
def removals (s : undo_stack) : List op → Nat
  | [] => 0
  | o :: os =>
    match step s o with
    | Except.error _ => 0
    | Except.ok r =>
      (if (o = op.undo ∨ o = op.squash) ∧ s.empty = false then 1 else 0) + removals r.stack os

/-- The chain of parent links of a sequence of sessions whose first element should have the
parent `p`: every element is linked to the one before it. -/
def chained_from (p : parent_ref) : List session_type → Prop
  | [] => True
  | x :: xs => x.parent = p ∧ chained_from (parent_ref.session x.addr) xs

instance chained_from.decidable :
    (p : parent_ref) → (l : List session_type) → Decidable (chained_from p l)
  | _, [] => isTrue trivial
  | p, x :: xs =>
    match decEq x.parent p, chained_from.decidable (parent_ref.session x.addr) xs with
    | isTrue h, isTrue h' => isTrue ⟨h, h'⟩
    | isFalse h, _ => isFalse fun c => h c.1
    | _, isFalse h' => isFalse fun c => h' c.2

/-- The chain of a stack: the bottom session is linked to the head. -/
def chained (s : undo_stack) : Prop := chained_from parent_ref.head s.m_sessions

instance (s : undo_stack) : Decidable (chained s) := by
  unfold chained; exact inferInstance

/-- The revision assigned to the session at position `i`, the bottom being position `0`. -/
def assigned_revision (s : undo_stack) (i : Nat) : Int := s.m_revision - s.size + 1 + i

/-- The sessions `commit` leaves once the front part is erased: the new front, if any, is
attached to the head. -/
def reattach : List session_type → List session_type
  | [] => []
  | front :: rest => front.attach parent_ref.head :: rest

/-- The stack of Scenario B: three pushes on a fresh stack, sessions at revisions 1, 2, 3. -/
def scenario_b : undo_stack := push_n 3 undo_stack.init

/-- A sequence of calls from the counter 7: a squash on the empty stack, three pushes, a
commit of the bottom session, two removals, an undo on the empty stack and a push. -/
def bookkeeping_ops : List op :=
  [op.squash, op.push, op.push, op.push, op.commit 8, op.undo, op.squash, op.undo, op.push]

/-- What `bookkeeping_ops` leaves when run from the empty stack of counter 7. -/
def bookkeeping_outcome : outcome :=
  { stack := { m_revision := 9, m_sessions := [⟨1, parent_ref.head⟩] },
    calls := [call.construct ⟨1, parent_ref.head⟩, call.construct ⟨2, parent_ref.session 1⟩,
      call.construct ⟨3, parent_ref.session 2⟩, call.commit ⟨2, parent_ref.session 1⟩,
      call.commit ⟨1, parent_ref.head⟩, call.attach ⟨2, parent_ref.session 1⟩ parent_ref.head,
      call.detach ⟨3, parent_ref.session 2⟩, call.commit ⟨2, parent_ref.head⟩,
      call.detach ⟨2, parent_ref.head⟩, call.construct ⟨1, parent_ref.head⟩] }

/-- The loop `for (auto& session : m_sessions) { session.undo(); }` of the destructor: the
calls it makes, bottom session first. -/
def destroy_loop : List session_type → List call
  | [] => []
  | x :: xs => call.undo x :: destroy_loop xs

/-- The destructor `~undo_stack()`: the calls it makes on the sessions it still holds. -/
def undo_stack.destroy (s : undo_stack) : List call := destroy_loop s.m_sessions

/-- The indices the fold loop of `commit` passes to `m_sessions[i]`, started at `i >= 0`, in
the order of the accesses; an access outside the deque is the last one. -/
def loop_accesses (sessions : List session_type) : Nat → List Nat
  | 0 => [0]
  | i + 1 =>
    match sessions[i + 1]? with
    | none => [i + 1]
    | some _ => (i + 1) :: loop_accesses sessions i

/-- The indices `commit(revision)` passes to `m_sessions[i]`: none when it returns at one of
its two guards, those of its fold loop otherwise. -/
def undo_stack.commit_accesses (s : undo_stack) (revision : Int) : List Nat :=
  if s.m_sessions.isEmpty then []
  else
    let revision := min revision s.m_revision
    let initial_revision := undo_stack.initial_revision s.m_revision s.m_sessions.length
    if initial_revision > revision then []
    else
      let start_index := revision - initial_revision + 1
      if 0 ≤ start_index then loop_accesses s.m_sessions start_index.toNat else []

/-- The counter is a value of `int64_t` and the revision `m_revision - size + 1` of the bottom
session is not below the least one: the states in which no `int64_t` has overflowed. -/
def in_range (s : undo_stack) : Prop :=
  is_int64 s.m_revision ∧ -2 ^ 63 ≤ s.m_revision - s.size + 1

instance (s : undo_stack) : Decidable (in_range s) := by
  unfold in_range; exact inferInstance

/-- Whether a call is an `attach(parent)`. -/
def call.is_attach : call → Bool
  | call.attach _ _ => true
  | _ => false

/-! ## The counter as an `int64_t`

`push`, `squash` and `undo` above move the counter as an integer, which is what the members
do as long as `++m_revision` and `--m_revision` do not overflow.  The definitions below are
the same members with the counter kept in the 64-bit two's complement representation: the
increment at `INT64_MAX` stores `INT64_MIN`, the decrement at `INT64_MIN` stores
`INT64_MAX`. -/

/-- The member `push()`, `++m_revision` in two's complement. -/
def undo_stack.push_int64 (s : undo_stack) : outcome :=
  let x : session_type :=
    match s.m_sessions.getLast? with
    | none => { addr := fresh_addr s.m_sessions, parent := parent_ref.head }
    | some back => { addr := fresh_addr s.m_sessions, parent := parent_ref.session back.addr }
  { stack := { m_revision := as_int64 (s.m_revision + 1), m_sessions := s.m_sessions ++ [x] },
    calls := [call.construct x] }

/-- The member `squash()`, `--m_revision` in two's complement. -/
def undo_stack.squash_int64 (s : undo_stack) : outcome :=
  match s.m_sessions.getLast? with
  | none => { stack := s, calls := [] }
  | some back =>
    { stack := { m_revision := as_int64 (s.m_revision - 1), m_sessions := s.m_sessions.dropLast },
      calls := [call.commit back, call.detach back] }

/-- The member `undo()`, `--m_revision` in two's complement. -/
def undo_stack.undo_int64 (s : undo_stack) : outcome :=
  match s.m_sessions.getLast? with
  | none => { stack := s, calls := [] }
  | some back =>
    { stack := { m_revision := as_int64 (s.m_revision - 1), m_sessions := s.m_sessions.dropLast },
      calls := [call.detach back] }

/-- One call on the stack, the counter in two's complement. -/
def step_int64 (s : undo_stack) : op → Except fault outcome
  | op.push => Except.ok s.push_int64
  | op.undo => Except.ok s.undo_int64
  | op.squash => Except.ok s.squash_int64
  | op.commit t => s.commit t
  | op.revision v => Except.ok { stack := s.set_revision v, calls := [] }

/-- A sequence of calls, the counter in two's complement; it stops at the first fault. -/
def run_int64 (s : undo_stack) : List op → Except fault outcome
  | [] => Except.ok { stack := s, calls := [] }
  | o :: os =>
    match step_int64 s o with
    | Except.error e => Except.error e
    | Except.ok r =>
      match run_int64 r.stack os with
      | Except.error e => Except.error e
      | Except.ok r' => Except.ok { stack := r'.stack, calls := r.calls ++ r'.calls }

/-- The stack after `n` consecutive calls of `push()`, the counter in two's complement. -/
def push_n_int64 : Nat → undo_stack → undo_stack
  | 0, s => s
  | n + 1, s => push_n_int64 n s.push_int64.stack

/-- The number of `undo()` and `squash()` calls of a sequence, run from `s` with the counter
in two's complement, that find the stack non-empty, and so remove a session. -/
def removals_int64 (s : undo_stack) : List op → Nat
  | [] => 0
  | o :: os =>
    match step_int64 s o with
    | Except.error _ => 0
    | Except.ok r =>
      (if (o = op.undo ∨ o = op.squash) ∧ s.empty = false then 1 else 0)
        + removals_int64 r.stack os

/-- No `push()` of the sequence, run from `s`, is called with the counter at `INT64_MAX`:
no `++m_revision` overflows. -/
def push_in_range (s : undo_stack) : List op → Bool
  | [] => true
  | o :: os =>
    (if o = op.push then decide (s.m_revision + 1 < 2 ^ 63) else true) &&
      match step_int64 s o with
      | Except.error _ => true
      | Except.ok r => push_in_range r.stack os

/-- The greatest value of `int64_t`. -/
def int64_max : Int := 2 ^ 63 - 1

/-- The least value of `int64_t`. -/
def int64_min : Int := -2 ^ 63

/-- The stack `revision(INT64_MAX - 1); push()` leaves of a fresh one: one session, the
counter at `INT64_MAX`. -/
def stack_at_max : undo_stack :=
  (undo_stack.init.set_revision (int64_max - 1)).push_int64.stack

open undo_stack

/-! ## Chains of parent links -/

theorem chained_from_append (p : parent_ref) (l : List session_type) (x : session_type) :
    chained_from p (l ++ [x]) ↔
      chained_from p l ∧ x.parent = (match l.getLast? with
        | none => p
        | some b => parent_ref.session b.addr) := by
  induction l generalizing p with
  | nil => simp [chained_from]
  | cons a l ih =>
    rw [List.cons_append, chained_from, chained_from, ih]
    cases l with
    | nil => simp [and_assoc]
    | cons b l =>
      rw [List.getLast?_cons_cons, List.getLast?_eq_getLast (b :: l) (List.cons_ne_nil b l)]
      simp [and_assoc]

theorem chained_from_dropLast (p : parent_ref) (l : List session_type)
    (h : chained_from p l) : chained_from p l.dropLast := by
  induction l generalizing p with
  | nil => simpa using h
  | cons a l ih =>
    cases l with
    | nil => simp [chained_from]
    | cons b l =>
      rw [List.dropLast_cons₂]
      exact ⟨h.1, ih _ h.2⟩

/-- What is left of a chain once a front part is erased and the new front is attached to the
head is a chain from the head. -/
theorem chained_from_reattach_drop (p : parent_ref) (l : List session_type) (k : Nat)
    (h : chained_from p l) : chained_from parent_ref.head (reattach (l.drop k)) := by
  induction l generalizing p k with
  | nil => simp [reattach, chained_from]
  | cons a l ih =>
    cases k with
    | zero => exact ⟨rfl, h.2⟩
    | succ k => simpa using ih _ k h.2

/-- A chain read by positions: the first session has the given parent and every later one is
linked to the session right before it. -/
theorem chained_from_index (p : parent_ref) (l : List session_type) (h : chained_from p l) :
    (∀ x, l.head? = some x → x.parent = p) ∧
      ∀ i x y, l[i]? = some x → l[i + 1]? = some y → y.parent = parent_ref.session x.addr := by
  induction l generalizing p with
  | nil => simp
  | cons a l ih =>
    obtain ⟨ha, hl⟩ := h
    refine ⟨fun x hx => ?_, fun i x y hx hy => ?_⟩
    · simp only [List.head?_cons, Option.some.injEq] at hx
      exact hx ▸ ha
    · cases i with
      | zero =>
        simp only [List.getElem?_cons_zero, Option.some.injEq] at hx
        simp only [zero_add, List.getElem?_cons_succ] at hy
        subst hx
        exact (ih _ hl).1 y (by cases l <;> simp_all)
      | succ i =>
        simp only [List.getElem?_cons_succ] at hx hy
        exact (ih _ hl).2 i x y hx hy

/-! ## The steps of `commit` -/

/-- The fold loop started at an index inside the deque calls `commit()` on the sessions at
that index and below, from the index down to the bottom; started outside, it faults at its
first access. -/
theorem commit_loop_eq (l : List session_type) (i : Nat) :
    commit_loop l i =
      if i < l.length then Except.ok ((l.take (i + 1)).reverse.map call.commit)
      else Except.error (fault.out_of_range i l.length) := by
  induction i with
  | zero =>
    cases l with
    | nil => simp [commit_loop]
    | cons a l => simp [commit_loop]
  | succ i ih =>
    rw [commit_loop]
    by_cases h : i + 1 < l.length
    · have hi : i < l.length := by omega
      rw [List.getElem?_eq_getElem h]
      simp only [ih, hi, h, if_true]
      have e : l.take (i + 1 + 1) = l.take (i + 1) ++ [l[i + 1]] := by
        rw [List.take_succ, List.getElem?_eq_getElem h]; rfl
      rw [e, List.reverse_append]
      rfl
    · rw [List.getElem?_eq_none (by omega)]
      simp [h]

/-- The mixed-width expression of `commit` is exact whenever the revision of the bottom
session is a value of `int64_t`. -/
theorem initial_revision_eq (r : Int) (n : Nat) (h : is_int64 (r - n + 1)) :
    initial_revision r n = r - n + 1 := by
  obtain ⟨h1, h2⟩ := h
  unfold initial_revision as_int64 as_uint64
  norm_num at h1 h2 ⊢
  split_ifs <;> omega

/-- A `commit` that returns leaves the counter alone, and leaves either the sessions as they
were or a rear part of them with its front attached to the head. -/
theorem commit_shape (s : undo_stack) (t : Int) (o : outcome) (h : s.commit t = Except.ok o) :
    o.stack.m_revision = s.m_revision ∧
      (o.stack.m_sessions = s.m_sessions ∨
        ∃ k, o.stack.m_sessions = reattach (s.m_sessions.drop k)) := by
  simp only [commit] at h
  split_ifs at h with h1 h2 h3
  · cases h; exact ⟨rfl, Or.inl rfl⟩
  · cases h; exact ⟨rfl, Or.inl rfl⟩
  all_goals
    split at h
    · cases h
    · split at h
      · rename_i hd
        cases h
        exact ⟨rfl, Or.inr ⟨_, by rw [hd]; rfl⟩⟩
      · rename_i hd
        cases h
        exact ⟨rfl, Or.inr ⟨_, by rw [hd]; rfl⟩⟩

/-- A target below the revision of the bottom session: `commit` returns at its second
guard. -/
theorem commit_below (s : undo_stack) (t : Int) (hne : s.m_sessions ≠ [])
    (hb : is_int64 (s.m_revision - s.size + 1)) (ht : t < s.m_revision - s.size + 1) :
    s.commit t = Except.ok { stack := s, calls := [] } := by
  have hn : 0 < s.m_sessions.length := List.length_pos.mpr hne
  unfold undo_stack.size at hb ht
  simp only [commit, initial_revision_eq _ _ hb]
  rw [if_neg (by simpa using hne), if_pos]
  simp only [gt_iff_lt, lt_min_iff, not_and, not_lt]
  omega

/-- A target at or above the counter: the fold loop starts at the index `size()`, which is
outside the deque. -/
theorem commit_fault (s : undo_stack) (t : Int) (hne : s.m_sessions ≠ [])
    (hb : is_int64 (s.m_revision - s.size + 1)) (ht : s.m_revision ≤ t) :
    s.commit t = Except.error (fault.out_of_range s.size s.size) := by
  have hn : 0 < s.m_sessions.length := List.length_pos.mpr hne
  unfold undo_stack.size at hb ⊢
  simp only [commit, initial_revision_eq _ _ hb, min_eq_right ht]
  have e : s.m_revision - (s.m_revision - ↑s.m_sessions.length + 1) + 1
      = (s.m_sessions.length : Int) := by ring
  rw [if_neg (by simpa using hne), if_neg (by omega), e, if_pos (by omega), Int.toNat_ofNat,
    commit_loop_eq, if_neg (lt_irrefl _)]

/-- A target from the revision of the bottom session up to, but not including, the counter:
with `c = t - (m_revision - size + 1) + 1`, the fold loop calls `commit()` on the sessions
at the indices `c, c - 1, ..., 0`, the first `c` sessions are erased and the session that was
at index `c` is attached to the head. -/
theorem commit_partial (s : undo_stack) (t : Int)
    (hb : is_int64 (s.m_revision - s.size + 1)) (h1 : s.m_revision - s.size + 1 ≤ t)
    (h2 : t < s.m_revision) :
    ∃ front rest,
      s.m_sessions.drop (t - (s.m_revision - s.size + 1) + 1).toNat = front :: rest ∧
      s.commit t = Except.ok
        { stack := { s with m_sessions := front.attach parent_ref.head :: rest },
          calls :=
            (s.m_sessions.take ((t - (s.m_revision - s.size + 1) + 1).toNat + 1)).reverse.map
                call.commit ++ [call.attach front parent_ref.head] } := by
  unfold undo_stack.size at hb h1 ⊢
  have hc : (t - (s.m_revision - ↑s.m_sessions.length + 1) + 1).toNat < s.m_sessions.length := by
    omega
  have hne : s.m_sessions ≠ [] := by
    intro h; rw [h] at hc; simp at hc
  obtain ⟨front, rest, hd⟩ : ∃ front rest,
      s.m_sessions.drop (t - (s.m_revision - ↑s.m_sessions.length + 1) + 1).toNat
        = front :: rest := by
    cases hd : s.m_sessions.drop (t - (s.m_revision - ↑s.m_sessions.length + 1) + 1).toNat with
    | nil => rw [List.drop_eq_nil_iff] at hd; omega
    | cons a l => exact ⟨a, l, rfl⟩
  refine ⟨front, rest, hd, ?_⟩
  simp only [commit, initial_revision_eq _ _ hb, min_eq_left (le_of_lt h2)]
  rw [if_neg (by simpa using hne), if_neg (by omega), if_pos (by omega), commit_loop_eq,
    if_pos hc]
  simp only [hd]

/-! ## Single calls -/

theorem push_sessions (s : undo_stack) :
    ∃ x, s.push = { stack := { m_revision := s.m_revision + 1, m_sessions := s.m_sessions ++ [x] },
                    calls := [call.construct x] } ∧
      x.parent = (match s.m_sessions.getLast? with
        | none => parent_ref.head
        | some b => parent_ref.session b.addr) := by
  unfold push
  cases s.m_sessions.getLast? with
  | none => exact ⟨_, rfl, rfl⟩
  | some b => exact ⟨_, rfl, rfl⟩

theorem undo_eq (s : undo_stack) :
    s.undo = if s.m_sessions = [] then { stack := s, calls := [] }
      else { stack := { m_revision := s.m_revision - 1, m_sessions := s.m_sessions.dropLast },
             calls := s.m_sessions.getLast?.toList.map call.detach } := by
  unfold undo
  cases h : s.m_sessions.getLast? with
  | none => simp [List.getLast?_eq_none_iff.mp h]
  | some b =>
    have : s.m_sessions ≠ [] := by
      intro e; rw [e] at h; simp at h
    simp [this]

theorem squash_eq (s : undo_stack) :
    s.squash = if s.m_sessions = [] then { stack := s, calls := [] }
      else { stack := { m_revision := s.m_revision - 1, m_sessions := s.m_sessions.dropLast },
             calls := s.m_sessions.getLast?.toList.flatMap
               fun b => [call.commit b, call.detach b] } := by
  unfold squash
  cases h : s.m_sessions.getLast? with
  | none => simp [List.getLast?_eq_none_iff.mp h]
  | some b =>
    have : s.m_sessions ≠ [] := by
      intro e; rw [e] at h; simp at h
    simp [this]

theorem set_revision_sessions (s : undo_stack) (v : Int) :
    (s.set_revision v).m_sessions = s.m_sessions := by
  unfold set_revision
  split_ifs <;> rfl

/-! ## The chain along a sequence of calls -/

theorem step_chained (s : undo_stack) (o : op) (r : outcome) (hs : chained s)
    (h : step s o = Except.ok r) : chained r.stack := by
  unfold chained at hs ⊢
  cases o with
  | push =>
    obtain ⟨x, hx, hp⟩ := push_sessions s
    simp only [step, Except.ok.injEq] at h
    rw [← h, hx]
    exact (chained_from_append _ _ _).mpr ⟨hs, hp⟩
  | undo =>
    simp only [step, Except.ok.injEq] at h
    rw [← h, undo_eq]
    split_ifs
    · exact hs
    · exact chained_from_dropLast _ _ hs
  | squash =>
    simp only [step, Except.ok.injEq] at h
    rw [← h, squash_eq]
    split_ifs
    · exact hs
    · exact chained_from_dropLast _ _ hs
  | commit t =>
    obtain ⟨-, hl | ⟨k, hl⟩⟩ := commit_shape s t r h
    · rw [hl]; exact hs
    · rw [hl]; exact chained_from_reattach_drop _ _ k hs
  | revision v =>
    simp only [step, Except.ok.injEq] at h
    rw [← h]
    simpa [set_revision_sessions] using hs

theorem run_cons (s : undo_stack) (o : op) (os : List op) (r : outcome)
    (h : run s (o :: os) = Except.ok r) :
    ∃ r1 r2, step s o = Except.ok r1 ∧ run r1.stack os = Except.ok r2 ∧
      r.stack = r2.stack ∧ r.calls = r1.calls ++ r2.calls := by
  rw [run] at h
  cases h1 : step s o with
  | error e => rw [h1] at h; cases h
  | ok r1 =>
    rw [h1] at h
    simp only at h
    cases h2 : run r1.stack os with
    | error e => rw [h2] at h; cases h
    | ok r2 =>
      rw [h2] at h
      simp only [Except.ok.injEq] at h
      exact ⟨r1, r2, rfl, h2, by rw [← h], by rw [← h]⟩

theorem run_chained (os : List op) (s : undo_stack) (r : outcome) (hs : chained s)
    (h : run s os = Except.ok r) : chained r.stack := by
  induction os generalizing s r with
  | nil =>
    simp only [run, Except.ok.injEq] at h
    rw [← h]; exact hs
  | cons o os ih =>
    obtain ⟨r1, r2, h1, h2, h3, -⟩ := run_cons s o os r h
    rw [h3]
    exact ih r1.stack r2 (step_chained s o r1 hs h1) h2

/-- C1: in every state reached from a freshly constructed stack by a sequence of `push`,
`undo`, `squash`, `commit(t)` and `revision(v)` calls, the parent of the bottom session is
the head, and the parent of every other session is the session immediately below it. -/
theorem chain_invariant (os : List op) (r : outcome)
    (h : run undo_stack.init os = Except.ok r) :
    (∀ x, r.stack.bottom = element_type.session x → x.parent = parent_ref.head) ∧
      ∀ i x y, r.stack.m_sessions[i]? = some x → r.stack.m_sessions[i + 1]? = some y →
        y.parent = parent_ref.session x.addr := by
  have hc : chained r.stack := run_chained os undo_stack.init r trivial h
  obtain ⟨h0, hi⟩ := chained_from_index _ _ hc
  refine ⟨fun x hx => h0 x ?_, hi⟩
  unfold bottom at hx
  cases hd : r.stack.m_sessions.head? with
  | none => rw [hd] at hx; cases hx
  | some f => rw [hd] at hx; cases hx; rfl

/-- The chain invariant (C1) on the sequence push, push, push, commit(1), push, squash,
undo, revision(9), push, which leaves two sessions. -/
theorem chain_invariant_witness :
    run undo_stack.init [op.push, op.push, op.push, op.commit 1, op.push, op.squash, op.undo,
        op.revision 9, op.push] =
      Except.ok
        { stack := { m_revision := 3,
                     m_sessions := [⟨2, parent_ref.head⟩, ⟨3, parent_ref.session 2⟩] },
          calls := [call.construct ⟨1, parent_ref.head⟩,
            call.construct ⟨2, parent_ref.session 1⟩, call.construct ⟨3, parent_ref.session 2⟩,
            call.commit ⟨2, parent_ref.session 1⟩, call.commit ⟨1, parent_ref.head⟩,
            call.attach ⟨2, parent_ref.session 1⟩ parent_ref.head,
            call.construct ⟨4, parent_ref.session 3⟩, call.commit ⟨4, parent_ref.session 3⟩,
            call.detach ⟨4, parent_ref.session 3⟩, call.detach ⟨3, parent_ref.session 2⟩,
            call.construct ⟨3, parent_ref.session 2⟩] } ∧
    (∀ x, element_type.session (⟨2, parent_ref.head⟩ : session_type) = element_type.session x →
      x.parent = parent_ref.head) ∧
    ∀ i x y, [(⟨2, parent_ref.head⟩ : session_type), ⟨3, parent_ref.session 2⟩][i]? = some x →
      [(⟨2, parent_ref.head⟩ : session_type), ⟨3, parent_ref.session 2⟩][i + 1]? = some y →
        y.parent = parent_ref.session x.addr :=
  ⟨rfl, chain_invariant _ _ (rfl : run undo_stack.init [op.push, op.push, op.push, op.commit 1,
    op.push, op.squash, op.undo, op.revision 9, op.push] = Except.ok _)⟩

/-! ## `commit` -/

/-- C2: on the stack with sessions at revisions 1, 2, 3, `commit(2)` (Scenario B) leaves one
session, the one of revision 3, attached to the head; `commit(3)`, for which the count of
sessions to remove is `c = 3`, removes nothing: its fold loop starts at `m_sessions[3]`,
outside the deque of three sessions. -/
theorem commit_scenario_b_all :
    (∃ r, scenario_b.commit 2 = Except.ok r ∧ r.stack.size = 1 ∧
      r.stack.bottom = element_type.session ⟨3, parent_ref.head⟩ ∧
      assigned_revision r.stack 0 = 3) ∧
    scenario_b.m_revision - scenario_b.size + 1 ≤ 3 ∧
    scenario_b.commit 3 = Except.error (fault.out_of_range 3 3) :=
  ⟨⟨_, rfl, rfl, rfl, rfl⟩, by decide, rfl⟩

/-- C3: for every target `t` from the revision of the bottom session up to, but not
including, the counter, `commit(t)` returns and has called `commit()` on a session whose
assigned revision is larger than `min(t, revision())`: the session at index
`min(t, revision()) - (revision() - size() + 1) + 1`, of assigned revision `t + 1`. -/
theorem commit_folds_above_target (s : undo_stack) (t : Int)
    (hb : is_int64 (s.m_revision - s.size + 1)) (h1 : s.m_revision - s.size + 1 ≤ t)
    (h2 : t < s.m_revision) :
    ∃ r i x, s.commit t = Except.ok r ∧ s.m_sessions[i]? = some x ∧
      min t s.revision < assigned_revision s i ∧ assigned_revision s i = t + 1 ∧
      call.commit x ∈ r.calls := by
  obtain ⟨front, rest, hd, hc⟩ := commit_partial s t hb h1 h2
  have hx : s.m_sessions[(t - (s.m_revision - s.size + 1) + 1).toNat]? = some front := by
    have := List.getElem?_drop s.m_sessions (t - (s.m_revision - s.size + 1) + 1).toNat 0
    rw [hd] at this
    simpa using this.symm
  have ha : assigned_revision s (t - (s.m_revision - s.size + 1) + 1).toNat = t + 1 := by
    unfold assigned_revision
    rw [Int.toNat_of_nonneg (by omega)]
    ring
  refine ⟨_, _, front, hc, hx, ?_, ha, ?_⟩
  · rw [ha, undo_stack.revision, min_eq_left (le_of_lt h2)]
    omega
  · simp only [List.mem_append, List.mem_map, List.mem_reverse]
    refine Or.inl ⟨front, ?_, rfl⟩
    rw [List.mem_iff_getElem?]
    exact ⟨_, by rw [List.getElem?_take_of_succ]; exact hx⟩

/-- Scenario B for C3: of the sessions at revisions 1, 2, 3, `commit(2)` calls `commit()` on
the session of revision 3 as well. -/
theorem commit_folds_above_target_witness :
    is_int64 (scenario_b.m_revision - scenario_b.size + 1) ∧
    scenario_b.m_revision - scenario_b.size + 1 ≤ 2 ∧ (2 : Int) < scenario_b.m_revision ∧
    ∃ r i x, scenario_b.commit 2 = Except.ok r ∧ scenario_b.m_sessions[i]? = some x ∧
      min 2 scenario_b.revision < assigned_revision scenario_b i ∧
      assigned_revision scenario_b i = 2 + 1 ∧ call.commit x ∈ r.calls :=
  ⟨by decide, by decide, by decide,
    commit_folds_above_target scenario_b 2 (by decide) (by decide) (by decide)⟩

/-- C4: on every stack with at least one session, `commit(revision())` does not complete: the
first access of its fold loop is `m_sessions[size()]`, outside the deque. -/
theorem commit_revision_faults (s : undo_stack) (hne : s.empty = false)
    (hb : is_int64 (s.m_revision - s.size + 1)) :
    s.commit s.revision = Except.error (fault.out_of_range s.size s.size) :=
  commit_fault s s.m_revision (by simpa [undo_stack.empty] using hne) hb (le_refl _)

/-- The fault of C4 on the stack of one session at revision 1. -/
theorem commit_revision_faults_witness :
    (push_n 1 undo_stack.init).empty = false ∧
    is_int64 ((push_n 1 undo_stack.init).m_revision - (push_n 1 undo_stack.init).size + 1) ∧
    (push_n 1 undo_stack.init).commit (push_n 1 undo_stack.init).revision =
      Except.error (fault.out_of_range 1 1) :=
  ⟨rfl, by decide, commit_revision_faults (push_n 1 undo_stack.init) rfl (by decide)⟩

/-! ## `push`, `undo`, `squash` -/

/-- C5: `undo()` right after `push()` restores the stack, empty or not: the counter and the
sequence of sessions (so `size()` and `revision()`) are those before the push, and neither
call invokes `commit()` on a session. -/
theorem push_undo (s : undo_stack) :
    s.push.stack.undo.stack = s ∧
      s.push.stack.undo.stack.size = s.size ∧
      s.push.stack.undo.stack.revision = s.revision ∧
      ∀ c ∈ s.push.calls ++ s.push.stack.undo.calls, c.is_commit = false := by
  obtain ⟨x, hx, -⟩ := push_sessions s
  have hu : s.push.stack.undo = { stack := s, calls := [call.detach x] } := by
    rw [hx, undo_eq]
    simp
  rw [hu]
  refine ⟨rfl, rfl, rfl, fun c hc => ?_⟩
  rw [hx] at hc
  simp only [List.mem_append, List.mem_singleton] at hc
  rcases hc with rfl | rfl <;> rfl

/-- C6: on a non-empty stack `squash()` calls `commit()` on the top session, once and while
the session is linked to the session second from the top (to the head when there is no
other session), calls `commit()` on nothing else, then detaches the top session and removes
it: `size()` and `revision()` decrease by 1 and the other sessions stay in place. -/
theorem squash_top (s : undo_stack) (hne : s.empty = false) (hc : chained s) :
    ∃ x, s.top = element_type.session x ∧
      x.parent = (match s.m_sessions.dropLast.getLast? with
        | none => parent_ref.head
        | some below => parent_ref.session below.addr) ∧
      s.squash.calls = [call.commit x, call.detach x] ∧
      s.squash.stack.m_sessions = s.m_sessions.dropLast ∧
      s.squash.stack.size + 1 = s.size ∧
      s.squash.stack.revision = s.revision - 1 := by
  have hl : s.m_sessions ≠ [] := by simpa [undo_stack.empty] using hne
  have hlast := List.getLast?_eq_getLast s.m_sessions hl
  have happ := List.dropLast_concat_getLast hl
  have hp := hc
  unfold chained at hp
  rw [← happ, chained_from_append] at hp
  refine ⟨s.m_sessions.getLast hl, ?_, hp.2, ?_, ?_, ?_, ?_⟩
  · unfold top; rw [hlast]
  · rw [squash_eq, if_neg hl, hlast]; rfl
  · rw [squash_eq, if_neg hl]
  · rw [squash_eq, if_neg hl]
    have := List.length_pos.mpr hl
    simp only [undo_stack.size, List.length_dropLast]
    omega
  · rw [squash_eq, if_neg hl]; rfl

/-- Scenario C for C6: one session on a fresh stack; `squash()` folds it into the head and
leaves `size() == 0` and the counter decremented by 1. -/
theorem squash_top_witness :
    (push_n 1 undo_stack.init).empty = false ∧ chained (push_n 1 undo_stack.init) ∧
    (push_n 1 undo_stack.init).squash =
      { stack := { m_revision := 0, m_sessions := [] },
        calls := [call.commit ⟨1, parent_ref.head⟩, call.detach ⟨1, parent_ref.head⟩] } ∧
    ∃ x, (push_n 1 undo_stack.init).top = element_type.session x ∧
      x.parent = (match (push_n 1 undo_stack.init).m_sessions.dropLast.getLast? with
        | none => parent_ref.head
        | some below => parent_ref.session below.addr) ∧
      (push_n 1 undo_stack.init).squash.calls = [call.commit x, call.detach x] ∧
      (push_n 1 undo_stack.init).squash.stack.m_sessions =
        (push_n 1 undo_stack.init).m_sessions.dropLast ∧
      (push_n 1 undo_stack.init).squash.stack.size + 1 = (push_n 1 undo_stack.init).size ∧
      (push_n 1 undo_stack.init).squash.stack.revision =
        (push_n 1 undo_stack.init).revision - 1 :=
  ⟨rfl, by decide, rfl, squash_top (push_n 1 undo_stack.init) rfl (by decide)⟩

/-! ## The revision counter -/

theorem step_revision (s : undo_stack) (o : op) (r : outcome) (h : step s o = Except.ok r)
    (ho : o.is_revision = false) :
    r.stack.m_revision = s.m_revision + pushes [o] - removals s [o] := by
  cases o with
  | push =>
    obtain ⟨x, hx, -⟩ := push_sessions s
    simp only [step, Except.ok.injEq] at h
    rw [← h, hx]
    simp [pushes, removals, step]
  | undo =>
    simp only [step, Except.ok.injEq] at h
    rw [← h, undo_eq]
    by_cases he : s.m_sessions = []
    · simp [pushes, removals, step, he, undo_stack.empty]
    · simp [pushes, removals, step, he, undo_stack.empty]
  | squash =>
    simp only [step, Except.ok.injEq] at h
    rw [← h, squash_eq]
    by_cases he : s.m_sessions = []
    · simp [pushes, removals, step, he, undo_stack.empty]
    · simp [pushes, removals, step, he, undo_stack.empty]
  | commit t =>
    have h' : s.commit t = Except.ok r := h
    rw [(commit_shape s t r h').1]
    simp [pushes, removals, step, h']
  | revision v => simp [op.is_revision] at ho

theorem removals_cons (s : undo_stack) (o : op) (os : List op) (r : outcome)
    (h : step s o = Except.ok r) :
    removals s (o :: os) = removals s [o] + removals r.stack os := by
  simp [removals, h]

theorem run_revision (os : List op) (s : undo_stack) (r : outcome)
    (h : run s os = Except.ok r) (ho : ∀ o ∈ os, o.is_revision = false) :
    r.stack.m_revision = s.m_revision + pushes os - removals s os := by
  induction os generalizing s r with
  | nil =>
    simp only [run, Except.ok.injEq] at h
    rw [← h]
    simp [pushes, removals]
  | cons o os ih =>
    obtain ⟨r1, r2, h1, h2, h3, -⟩ := run_cons s o os r h
    have e1 := step_revision s o r1 h1 (ho o (List.mem_cons_self _ _))
    have e2 := ih r1.stack r2 h2 fun o' ho' => ho o' (List.mem_cons_of_mem _ ho')
    have ep : pushes (o :: os) = pushes [o] + pushes os := by
      unfold pushes
      rw [← List.count_append]
      rfl
    rw [h3, e2, e1, removals_cons s o os r1 h1, ep]
    push_cast
    ring

/-- After `n` calls of `push()` the counter and the size have both grown by `n`. -/
theorem push_n_eq (n : Nat) (s : undo_stack) :
    (push_n n s).m_revision = s.m_revision + n ∧ (push_n n s).size = s.size + n := by
  induction n generalizing s with
  | zero => simp [push_n]
  | succ n ih =>
    obtain ⟨x, hx, -⟩ := push_sessions s
    obtain ⟨h1, h2⟩ := ih s.push.stack
    rw [push_n, h1, h2, hx]
    simp only [undo_stack.size, List.length_append, List.length_singleton]
    push_cast
    constructor <;> omega

/-- C9: `revision(v)` changes the stack exactly when the stack is empty and `v` is greater
than the counter; it then changes the counter to `v` and nothing else, and otherwise leaves
the counter and the sessions as they are. -/
theorem set_revision_changes (s : undo_stack) (v : Int) :
    (s.set_revision v ≠ s ↔ s.empty = true ∧ s.revision < v) ∧
      (s.empty = true ∧ s.revision < v →
        s.set_revision v = { m_revision := v, m_sessions := s.m_sessions }) ∧
      (¬ (s.empty = true ∧ s.revision < v) → s.set_revision v = s) := by
  unfold set_revision undo_stack.revision
  cases he : s.empty
  · simp
  · by_cases hv : v ≤ s.m_revision
    · simp [hv, not_lt.mpr hv]
    · have hlt : s.m_revision < v := not_le.mp hv
      simp only [Bool.not_true, Bool.false_eq_true, if_false, hv, true_and, hlt,
        not_true_eq_false, forall_true_left, ne_eq, iff_true, IsEmpty.forall_iff, and_true]
      intro h
      have := congrArg undo_stack.m_revision h
      simp only at this
      omega

/-- C10: `undo()`, `squash()` and `commit(t)` on an empty stack, and `commit(t)` on a
non-empty stack with `t` below `revision() - size() + 1`, leave the counter, the sessions
and their parent links as they are and make no call on a session. -/
theorem silent_no_ops (s : undo_stack) (t : Int) :
    (s.empty = true →
      s.undo = { stack := s, calls := [] } ∧ s.squash = { stack := s, calls := [] } ∧
      s.commit t = Except.ok { stack := s, calls := [] }) ∧
    (s.empty = false → is_int64 s.revision → is_int64 t → t < s.revision - s.size + 1 →
      s.commit t = Except.ok { stack := s, calls := [] }) := by
  constructor
  · intro he
    have hl : s.m_sessions = [] := by simpa [undo_stack.empty] using he
    refine ⟨by rw [undo_eq, if_pos hl], by rw [squash_eq, if_pos hl], ?_⟩
    simp [commit, hl]
  · intro he hr ht hlt
    have hl : s.m_sessions ≠ [] := by simpa [undo_stack.empty] using he
    have hn : 0 < s.m_sessions.length := List.length_pos.mpr hl
    unfold undo_stack.revision at hr hlt
    refine commit_below s t hl ?_ hlt
    unfold is_int64 undo_stack.size at *
    omega

/-- The no-ops of C10 on the fresh stack and on the stack with sessions at revisions 1, 2, 3,
where the target 0 is below the revision 1 of the bottom session. -/
theorem silent_no_ops_witness :
    undo_stack.init.empty = true ∧
    (undo_stack.init.undo = { stack := undo_stack.init, calls := [] } ∧
      undo_stack.init.squash = { stack := undo_stack.init, calls := [] } ∧
      undo_stack.init.commit 4 = Except.ok { stack := undo_stack.init, calls := [] }) ∧
    scenario_b.empty = false ∧ is_int64 scenario_b.revision ∧ is_int64 0 ∧
    (0 : Int) < scenario_b.revision - scenario_b.size + 1 ∧
    scenario_b.commit 0 = Except.ok { stack := scenario_b, calls := [] } :=
  ⟨rfl, (silent_no_ops undo_stack.init 4).1 rfl, rfl, by decide, by decide, by decide,
    (silent_no_ops scenario_b 0).2 rfl (by decide) (by decide) (by decide)⟩

/-! ## Further properties of `commit` -/

/-- For a target `t` from the revision of the bottom session up to, but not including, the
counter, `commit(t)` returns; with `c = t - (revision() - size() + 1) + 1` it removes the
first `c` sessions, keeps the other `size() - c` sessions in their order (the same
addresses, and from the second one on the same parent links), attaches the new bottom
session to the head and leaves the counter as it is. -/
theorem commit_removes_front (s : undo_stack) (t : Int)
    (hb : is_int64 (s.m_revision - s.size + 1)) (h1 : s.m_revision - s.size + 1 ≤ t)
    (h2 : t < s.m_revision) :
    ∃ r front, s.commit t = Except.ok r ∧
      r.stack.revision = s.revision ∧
      r.stack.size + (t - (s.m_revision - s.size + 1) + 1).toNat = s.size ∧
      r.stack.m_sessions.map session_type.addr =
        (s.m_sessions.drop (t - (s.m_revision - s.size + 1) + 1).toNat).map session_type.addr ∧
      r.stack.m_sessions.tail =
        (s.m_sessions.drop (t - (s.m_revision - s.size + 1) + 1).toNat).tail ∧
      r.stack.bottom = element_type.session front ∧ front.parent = parent_ref.head := by
  obtain ⟨front, rest, hd, hc⟩ := commit_partial s t hb h1 h2
  refine ⟨_, front.attach parent_ref.head, hc, rfl, ?_, ?_, ?_, rfl, rfl⟩
  · have hlen := congrArg List.length hd
    simp only [List.length_drop, List.length_cons] at hlen
    simp only [undo_stack.size, List.length_cons]
    unfold undo_stack.size at hlen
    omega
  · rw [hd]; rfl
  · rw [hd]; rfl

/-- Scenario B: of the sessions at revisions 1, 2, 3, `commit(2)` removes the first two and
leaves the session of revision 3 attached to the head. -/
theorem commit_removes_front_witness :
    is_int64 (scenario_b.m_revision - scenario_b.size + 1) ∧
    scenario_b.m_revision - scenario_b.size + 1 ≤ 2 ∧ (2 : Int) < scenario_b.m_revision ∧
    ∃ r front, scenario_b.commit 2 = Except.ok r ∧
      r.stack.revision = scenario_b.revision ∧
      r.stack.size + (2 - (scenario_b.m_revision - scenario_b.size + 1) + 1).toNat
        = scenario_b.size ∧
      r.stack.m_sessions.map session_type.addr =
        (scenario_b.m_sessions.drop
          (2 - (scenario_b.m_revision - scenario_b.size + 1) + 1).toNat).map session_type.addr ∧
      r.stack.m_sessions.tail =
        (scenario_b.m_sessions.drop
          (2 - (scenario_b.m_revision - scenario_b.size + 1) + 1).toNat).tail ∧
      r.stack.bottom = element_type.session front ∧ front.parent = parent_ref.head :=
  ⟨by decide, by decide, by decide,
    commit_removes_front scenario_b 2 (by decide) (by decide) (by decide)⟩

/-! ## Addresses -/

theorem addr_lt_fresh_addr (l : List session_type) (x : session_type) (hx : x ∈ l) :
    x.addr < fresh_addr l := by
  unfold fresh_addr
  induction l with
  | nil => cases hx
  | cons a l ih =>
    simp only [List.map_cons, List.foldr_cons]
    rcases List.mem_cons.mp hx with rfl | h
    · omega
    · have := ih h
      omega

theorem map_addr_reattach (l : List session_type) :
    (reattach l).map session_type.addr = l.map session_type.addr := by
  cases l <;> rfl

theorem step_nodup (s : undo_stack) (o : op) (r : outcome)
    (hs : (s.m_sessions.map session_type.addr).Nodup) (h : step s o = Except.ok r) :
    (r.stack.m_sessions.map session_type.addr).Nodup := by
  cases o with
  | push =>
    simp only [step, Except.ok.injEq] at h
    have hx : ∃ p, s.push.stack.m_sessions = s.m_sessions ++ [⟨fresh_addr s.m_sessions, p⟩] := by
      unfold push
      cases s.m_sessions.getLast? with
      | none => exact ⟨_, rfl⟩
      | some b => exact ⟨_, rfl⟩
    obtain ⟨p, hp⟩ := hx
    rw [← h, hp, List.map_append, List.nodup_append]
    refine ⟨hs, List.nodup_singleton _, ?_⟩
    intro a ha hb
    obtain ⟨y, hy, rfl⟩ := List.mem_map.mp ha
    simp only [List.map_cons, List.map_nil, List.mem_singleton] at hb
    have := addr_lt_fresh_addr _ _ hy
    omega
  | undo =>
    simp only [step, Except.ok.injEq] at h
    rw [← h, undo_eq]
    split_ifs
    · exact hs
    · exact hs.sublist ((List.dropLast_sublist _).map _)
  | squash =>
    simp only [step, Except.ok.injEq] at h
    rw [← h, squash_eq]
    split_ifs
    · exact hs
    · exact hs.sublist ((List.dropLast_sublist _).map _)
  | commit t =>
    obtain ⟨-, hl | ⟨k, hl⟩⟩ := commit_shape s t r h
    · rw [hl]; exact hs
    · rw [hl, map_addr_reattach]
      exact hs.sublist ((List.drop_sublist _ _).map _)
  | revision v =>
    simp only [step, Except.ok.injEq] at h
    rw [← h]
    simpa [set_revision_sessions] using hs

/-- A sequence of calls keeps the addresses of the sessions pairwise distinct, so that in the
states reached from a fresh stack a parent link names one session. -/
theorem run_nodup (os : List op) (s : undo_stack) (r : outcome)
    (hs : (s.m_sessions.map session_type.addr).Nodup) (h : run s os = Except.ok r) :
    (r.stack.m_sessions.map session_type.addr).Nodup := by
  induction os generalizing s r with
  | nil =>
    simp only [run, Except.ok.injEq] at h
    rw [← h]; exact hs
  | cons o os ih =>
    obtain ⟨r1, r2, h1, h2, h3, -⟩ := run_cons s o os r h
    rw [h3]
    exact ih r1.stack r2 (step_nodup s o r1 hs h1) h2

/-! ## `top`, `bottom` and the destructor -/

/-- C11: on a non-empty stack `top()` is the last session of the sequence, the one pushed
most recently, and `bottom()` the first, the oldest; on an empty stack both are the head
alternative of the variant.  Scenario A: after three pushes on a fresh stack `top()` is the
third session and `bottom()` the first. -/
theorem top_bottom_elements :
    (∀ s : undo_stack, s.empty = false →
      ∃ x y, s.m_sessions[s.size - 1]? = some x ∧ s.m_sessions[0]? = some y ∧
        s.top = element_type.session x ∧ s.bottom = element_type.session y) ∧
    (∀ s : undo_stack, s.empty = true →
      s.top = element_type.head ∧ s.bottom = element_type.head) ∧
    ((push_n 3 undo_stack.init).m_sessions[2]? = some ⟨3, parent_ref.session 2⟩ ∧
      (push_n 3 undo_stack.init).top = element_type.session ⟨3, parent_ref.session 2⟩ ∧
      (push_n 3 undo_stack.init).m_sessions[0]? = some ⟨1, parent_ref.head⟩ ∧
      (push_n 3 undo_stack.init).bottom = element_type.session ⟨1, parent_ref.head⟩) := by
  refine ⟨fun s hne => ?_, fun s he => ?_, rfl, rfl, rfl, rfl⟩
  · have hl : s.m_sessions ≠ [] := by simpa [undo_stack.empty] using hne
    refine ⟨s.m_sessions.getLast hl, s.m_sessions.head hl, ?_, ?_, ?_, ?_⟩
    · rw [undo_stack.size, ← List.getLast?_eq_getElem?, List.getLast?_eq_getLast _ hl]
    · rw [← List.head?_eq_getElem?, List.head?_eq_head hl]
    · unfold top; rw [List.getLast?_eq_getLast _ hl]
    · unfold bottom; rw [List.head?_eq_head hl]
  · have hl : s.m_sessions = [] := by simpa [undo_stack.empty] using he
    unfold top bottom
    rw [hl]
    exact ⟨rfl, rfl⟩

theorem destroy_loop_getElem? (l : List session_type) (i : Nat) :
    (destroy_loop l)[i]? = l[i]?.map call.undo := by
  induction l generalizing i with
  | nil => simp [destroy_loop]
  | cons a l ih =>
    cases i with
    | zero => simp [destroy_loop]
    | succ i => simpa [destroy_loop] using ih i

theorem destroy_loop_length (l : List session_type) : (destroy_loop l).length = l.length := by
  induction l with
  | nil => rfl
  | cons a l ih => simp [destroy_loop, ih]

/-- C12: the destructor calls `undo()` on every session the stack still holds, once each (the
call at position `i` is the `undo()` of the session at position `i`, and there are `size()`
calls), and calls `commit()` on none. -/
theorem destroy_discards (s : undo_stack) :
    s.destroy.length = s.size ∧
      (∀ (i : Nat) (x : session_type), s.m_sessions[i]? = some x →
        s.destroy[i]? = some (call.undo x)) ∧
      (∀ c ∈ s.destroy, ∃ x ∈ s.m_sessions, c = call.undo x) ∧
      ∀ c ∈ s.destroy, c.is_commit = false := by
  have hmem : ∀ c ∈ s.destroy, ∃ x ∈ s.m_sessions, c = call.undo x := by
    intro c hc
    obtain ⟨i, hi⟩ := List.mem_iff_getElem?.mp hc
    rw [undo_stack.destroy, destroy_loop_getElem?] at hi
    cases hx : s.m_sessions[i]? with
    | none => rw [hx] at hi; cases hi
    | some x =>
      rw [hx] at hi
      simp only [Option.map_some', Option.some.injEq] at hi
      exact ⟨x, List.mem_iff_getElem?.mpr ⟨i, hx⟩, hi.symm⟩
  refine ⟨destroy_loop_length _, fun i x hx => ?_, hmem, fun c hc => ?_⟩
  · rw [undo_stack.destroy, destroy_loop_getElem?, hx]; rfl
  · obtain ⟨x, -, rfl⟩ := hmem c hc
    rfl

/-! ## The target of `commit` -/

/-- C13: a target `t` at or above the counter is clamped to the counter: `commit(t)` has the
outcome of `commit(revision())`, the same resulting stack and the same calls on sessions in
the same order (on a non-empty stack, the same access outside the deque). -/
theorem commit_clamped (s : undo_stack) (t : Int) (h : s.revision ≤ t) :
    s.commit t = s.commit s.revision := by
  unfold undo_stack.revision at *
  simp only [commit, min_eq_right h, min_self]

/-- The clamping of C13 on the fresh stack with the target 5 and on the stack with sessions
at revisions 1, 2, 3 with the target 7. -/
theorem commit_clamped_witness :
    undo_stack.init.revision ≤ 5 ∧
    undo_stack.init.commit 5 = Except.ok { stack := undo_stack.init, calls := [] } ∧
    undo_stack.init.commit 5 = undo_stack.init.commit undo_stack.init.revision ∧
    scenario_b.revision ≤ 7 ∧
    scenario_b.commit 7 = scenario_b.commit scenario_b.revision :=
  ⟨by decide, rfl, commit_clamped undo_stack.init 5 (by decide), by decide,
    commit_clamped scenario_b 7 (by decide)⟩

/-! ## The fold loop of `commit` -/

theorem filter_is_commit_map (l : List session_type) :
    (l.map call.commit).filter call.is_commit = l.map call.commit := by
  induction l with
  | nil => rfl
  | cons a l ih => simp [List.filter_cons, call.is_commit, ih]

/-- The calls of the fold loop read by position: the call at position `j` is made on the
session at the index `c - j`. -/
theorem commit_calls_getElem? (l : List session_type) (c j : Nat) (hc : c < l.length)
    (hj : j ≤ c) :
    ((l.take (c + 1)).reverse.map call.commit)[j]? = l[c - j]?.map call.commit := by
  have hlen : (l.take (c + 1)).length = c + 1 := by
    rw [List.length_take]; omega
  rw [List.getElem?_map, List.getElem?_reverse (by omega), hlen,
    List.getElem?_take_of_lt (by omega)]
  congr 2

/-- C14: there are a non-empty stack and a target for which `commit` calls `commit()` on one
session more than it removes (Scenario B, target 2).  This is so for every target `t` from
the revision of the bottom session up to, but not including, the counter: with
`c = start_index`, the fold loop makes `c + 1` calls of `commit()`, on the sessions at the
indices `c, c - 1, ..., 0` in that order, the erase removes the `c` sessions at the indices
`0 .. c - 1`, and the session at the index `c`, folded as well, is the new front. -/
theorem commit_fold_asymmetry :
    (∃ (s : undo_stack) (t : Int) (r : outcome), s.empty = false ∧ s.commit t = Except.ok r ∧
      (r.calls.filter call.is_commit).length = (s.size - r.stack.size) + 1) ∧
    ∀ (s : undo_stack) (t : Int), is_int64 (s.m_revision - s.size + 1) →
      s.m_revision - s.size + 1 ≤ t → t < s.m_revision →
      ∃ (r : outcome) (c : Nat) (x : session_type),
        (c : Int) = min t s.m_revision - (s.m_revision - s.size + 1) + 1 ∧
        s.commit t = Except.ok r ∧
        (∀ j, j ≤ c → r.calls[j]? = s.m_sessions[c - j]?.map call.commit) ∧
        r.calls[c + 1]? = some (call.attach x parent_ref.head) ∧
        r.calls.length = c + 2 ∧
        (r.calls.filter call.is_commit).length = c + 1 ∧
        r.stack.size + c = s.size ∧
        s.m_sessions[c]? = some x ∧
        r.stack.bottom = element_type.session (x.attach parent_ref.head) := by
  refine ⟨⟨scenario_b, 2, _, rfl, rfl, rfl⟩, fun s t hb h1 h2 => ?_⟩
  obtain ⟨front, rest, hd, hc⟩ := commit_partial s t hb h1 h2
  have hlen := congrArg List.length hd
  simp only [List.length_drop, List.length_cons] at hlen
  have hcn : (t - (s.m_revision - s.size + 1) + 1).toNat < s.m_sessions.length := by omega
  have htake : (s.m_sessions.take ((t - (s.m_revision - s.size + 1) + 1).toNat + 1)).length
      = (t - (s.m_revision - s.size + 1) + 1).toNat + 1 := by
    rw [List.length_take]; omega
  have hx : s.m_sessions[(t - (s.m_revision - s.size + 1) + 1).toNat]? = some front := by
    have := List.getElem?_drop s.m_sessions (t - (s.m_revision - s.size + 1) + 1).toNat 0
    rw [hd] at this
    simpa using this.symm
  refine ⟨_, (t - (s.m_revision - s.size + 1) + 1).toNat, front, ?_, hc, ?_, ?_, ?_, ?_, ?_,
    hx, rfl⟩
  · rw [Int.toNat_of_nonneg (by omega), min_eq_left (le_of_lt h2)]
  · intro j hj
    simp only
    rw [List.getElem?_append_left (by simp only [List.length_map, List.length_reverse]; omega)]
    exact commit_calls_getElem? _ _ _ hcn hj
  · simp only
    rw [List.getElem?_append_right
      (by simp only [List.length_map, List.length_reverse]; omega)]
    simp only [List.length_map, List.length_reverse, htake, Nat.sub_self]
    rfl
  · simp only [List.length_append, List.length_map, List.length_reverse, htake,
      List.length_singleton]
  · simp only [List.filter_append, filter_is_commit_map, List.length_append, List.length_map,
      List.length_reverse, htake]
    rfl
  · simp only [undo_stack.size, List.length_cons]
    unfold undo_stack.size at hlen
    omega

/-! ## The indices `commit` accesses -/

/-- Started inside the deque the fold loop accesses the start index and every index below it;
started outside, its first access is its last. -/
theorem loop_accesses_eq (l : List session_type) (i : Nat) :
    loop_accesses l i = if i < l.length then (List.range (i + 1)).reverse else [i] := by
  induction i with
  | zero =>
    cases l with
    | nil => rfl
    | cons a l => rw [if_pos (by simp)]; rfl
  | succ i ih =>
    rw [loop_accesses]
    by_cases h : i + 1 < l.length
    · have hi : i < l.length := by omega
      rw [List.getElem?_eq_getElem h, if_pos h]
      simp only [ih, if_pos hi]
      rw [List.range_succ (n := i + 1), List.reverse_append]
      rfl
    · rw [List.getElem?_eq_none (by omega), if_neg h]

/-- The accesses of `commit` in the three cases of its target, on a non-empty stack whose
bottom revision is a value of `int64_t`. -/
theorem commit_accesses_eq (s : undo_stack) (t : Int) (hne : s.m_sessions ≠ [])
    (hb : is_int64 (s.m_revision - s.size + 1)) :
    s.commit_accesses t =
      if t < s.m_revision - s.size + 1 then []
      else if t < s.m_revision then
        (List.range ((t - (s.m_revision - s.size + 1) + 1).toNat + 1)).reverse
      else [s.size] := by
  have hn : 0 < s.m_sessions.length := List.length_pos.mpr hne
  unfold undo_stack.size at hb ⊢
  simp only [commit_accesses, initial_revision_eq _ _ hb]
  rw [if_neg (by simpa using hne)]
  by_cases h1 : t < s.m_revision - ↑s.m_sessions.length + 1
  · rw [if_pos h1, if_pos]
    simp only [gt_iff_lt, lt_min_iff, not_and, not_lt]
    omega
  · rw [if_neg h1]
    by_cases h2 : t < s.m_revision
    · rw [if_pos h2, min_eq_left (le_of_lt h2), if_neg (by omega), if_pos (by omega),
        loop_accesses_eq, if_pos (by omega)]
    · have h3 : s.m_revision ≤ t := not_lt.mp h2
      have e : s.m_revision - (s.m_revision - ↑s.m_sessions.length + 1) + 1
          = (s.m_sessions.length : Int) := by ring
      rw [if_neg h2, min_eq_right h3, if_neg (by omega), e, if_pos (by omega),
        Int.toNat_ofNat, loop_accesses_eq, if_neg (lt_irrefl _)]

/-- C15: the fold loop of `commit(t)` accesses an index outside the sequence exactly when
the stack is non-empty and `t >= revision()`; that index is `size()`, and `commit` then ends
in this access.  On a non-empty stack with `t < revision()` every index it accesses is below
`size()`. -/
theorem commit_index_safety (s : undo_stack) (t : Int) (hr : in_range s) :
    ((∃ i ∈ s.commit_accesses t, s.size ≤ i) ↔ (s.empty = false ∧ s.revision ≤ t)) ∧
      (∀ i ∈ s.commit_accesses t, s.size ≤ i → i = s.size) ∧
      (s.empty = false → t < s.revision → ∀ i ∈ s.commit_accesses t, i < s.size) ∧
      ((∃ i ∈ s.commit_accesses t, s.size ≤ i) ↔
        s.commit t = Except.error (fault.out_of_range s.size s.size)) := by
  unfold undo_stack.revision
  by_cases he : s.m_sessions = []
  · have hacc : s.commit_accesses t = [] := by simp [commit_accesses, he]
    have hcom : s.commit t = Except.ok { stack := s, calls := [] } := by simp [commit, he]
    simp [hacc, hcom, undo_stack.empty, he]
  · have hn : 0 < s.m_sessions.length := List.length_pos.mpr he
    have hb : is_int64 (s.m_revision - s.size + 1) := by
      obtain ⟨⟨-, h2⟩, h3⟩ := hr
      unfold undo_stack.size at h3 ⊢
      exact ⟨h3, by omega⟩
    have hemp : s.empty = false := by simpa [undo_stack.empty] using he
    rw [commit_accesses_eq s t he hb]
    by_cases h1 : t < s.m_revision - s.size + 1
    · have hlt : ¬ s.m_revision ≤ t := by unfold undo_stack.size at h1; omega
      simp [h1, hlt, commit_below s t he hb h1]
    · rw [if_neg h1]
      by_cases h2 : t < s.m_revision
      · obtain ⟨front, rest, hd, hc⟩ := commit_partial s t hb (not_lt.mp h1) h2
        have hlen := congrArg List.length hd
        simp only [List.length_drop, List.length_cons] at hlen
        have hbound : ∀ i ∈ (List.range
            ((t - (s.m_revision - s.size + 1) + 1).toNat + 1)).reverse, i < s.size := by
          intro i hi
          simp only [List.mem_reverse, List.mem_range] at hi
          unfold undo_stack.size at hi ⊢
          omega
        rw [if_pos h2, hc]
        refine ⟨⟨fun ⟨i, hi, hle⟩ => absurd (hbound i hi) (not_lt.mpr hle), fun h => ?_⟩,
          fun i hi hle => absurd (hbound i hi) (not_lt.mpr hle), fun _ _ => hbound,
          ⟨fun ⟨i, hi, hle⟩ => absurd (hbound i hi) (not_lt.mpr hle), fun h => by cases h⟩⟩
        exact absurd h.2 (not_le.mpr h2)
      · rw [if_neg h2, commit_fault s t he hb (not_lt.mp h2)]
        simp [hemp, not_lt.mp h2, h2]

/-- The index safety of C15 on the stack with sessions at revisions 1, 2, 3: the target 2
accesses the indices 2, 1, 0, the target 3 the index 3. -/
theorem commit_index_safety_witness :
    in_range scenario_b ∧ scenario_b.commit_accesses 2 = [2, 1, 0] ∧
    scenario_b.commit_accesses 3 = [3] ∧
    ((∃ i ∈ scenario_b.commit_accesses 3, scenario_b.size ≤ i) ↔
      (scenario_b.empty = false ∧ scenario_b.revision ≤ 3)) ∧
    (scenario_b.empty = false → (2 : Int) < scenario_b.revision →
      ∀ i ∈ scenario_b.commit_accesses 2, i < scenario_b.size) :=
  ⟨by decide, rfl, rfl, (commit_index_safety scenario_b 3 (by decide)).1,
    (commit_index_safety scenario_b 2 (by decide)).2.2.1⟩

/-! ## `commit` twice -/

/-- A `commit(t)` that returns leaves a stack on which `commit(t)` returns at once: the
second call changes nothing and makes no call on a session. -/
theorem commit_again (s : undo_stack) (t : Int) (r : outcome) (hr : in_range s)
    (h : s.commit t = Except.ok r) :
    r.stack.commit t = Except.ok { stack := r.stack, calls := [] } := by
  by_cases he : s.m_sessions = []
  · have hcom : s.commit t = Except.ok { stack := s, calls := [] } := by simp [commit, he]
    rw [hcom] at h
    cases h
    exact hcom
  · have hn : 0 < s.m_sessions.length := List.length_pos.mpr he
    obtain ⟨⟨hr1, hr2⟩, hr3⟩ := hr
    have hb : is_int64 (s.m_revision - s.size + 1) := by
      unfold undo_stack.size at hr3 ⊢
      exact ⟨hr3, by omega⟩
    by_cases h1 : t < s.m_revision - s.size + 1
    · have hcom := commit_below s t he hb h1
      rw [hcom] at h
      cases h
      exact hcom
    · by_cases h2 : t < s.m_revision
      · obtain ⟨front, rest, hd, hc⟩ := commit_partial s t hb (not_lt.mp h1) h2
        rw [hc] at h
        cases h
        have hlen := congrArg List.length hd
        simp only [List.length_drop, List.length_cons] at hlen
        have hb' := hb
        unfold is_int64 undo_stack.size at hb'
        unfold undo_stack.size at hlen h1
        refine commit_below _ t (List.cons_ne_nil _ _) ?_ ?_
        · simp only [undo_stack.size, List.length_cons]
          constructor <;> push_cast <;> omega
        · simp only [undo_stack.size, List.length_cons]
          push_cast
          omega
      · rw [commit_fault s t he hb (not_lt.mp h2)] at h
        cases h

/-! ## Assigned revisions -/

theorem reattach_length (l : List session_type) : (reattach l).length = l.length := by
  cases l <;> rfl

theorem reattach_getElem? (l : List session_type) (j : Nat) (y : session_type)
    (h : (reattach l)[j]? = some y) : ∃ x, l[j]? = some x ∧ x.addr = y.addr := by
  cases l with
  | nil => simp [reattach] at h
  | cons a l =>
    cases j with
    | zero =>
      simp only [reattach, List.getElem?_cons_zero, Option.some.injEq] at h
      exact ⟨a, List.getElem?_cons_zero, by rw [← h]; rfl⟩
    | succ j =>
      simp only [reattach, List.getElem?_cons_succ] at h
      exact ⟨y, by simpa using h, rfl⟩

/-- The sessions a returning `commit` leaves are the rear sessions of the stack, in place:
the session at position `j` afterwards is the session that was at position
`(size before - size after) + j`. -/
theorem commit_positions (s : undo_stack) (t : Int) (r : outcome)
    (h : s.commit t = Except.ok r) :
    r.stack.m_revision = s.m_revision ∧ r.stack.size ≤ s.size ∧
      ∀ (j : Nat) (y : session_type), r.stack.m_sessions[j]? = some y →
        ∃ x, s.m_sessions[(s.size - r.stack.size) + j]? = some x ∧ x.addr = y.addr := by
  obtain ⟨hrev, hl | ⟨k, hl⟩⟩ := commit_shape s t r h
  · refine ⟨hrev, by simp [undo_stack.size, hl], fun j y hy => ⟨y, ?_, rfl⟩⟩
    simpa [undo_stack.size, hl] using hy
  · have hlen : r.stack.size = s.size - k := by
      simp [undo_stack.size, hl, reattach_length]
    refine ⟨hrev, by omega, fun j y hy => ?_⟩
    rw [hl] at hy
    obtain ⟨x, hx, hxy⟩ := reattach_getElem? _ j y hy
    rw [List.getElem?_drop] at hx
    have hj : k + j < s.m_sessions.length := (List.getElem?_eq_some.mp hx).1
    have e : s.size - r.stack.size + j = k + j := by
      unfold undo_stack.size at hlen ⊢
      omega
    exact ⟨x, by rw [e]; exact hx, hxy⟩

/-- With the counter moved as an integer, `push`, `undo`, `squash` and a returning
`commit(t)` keep the assigned revision `revision() - size() + 1 + i` of every session that
stays in the sequence: `push`, `undo` and `squash` keep the positions and
`revision() - size()`, `commit` keeps `revision()` and moves the session at position `k + j`
to position `j`, `k` being the number of sessions it removes. -/
theorem assigned_revision_integer (s : undo_stack) :
    (s.push.stack.revision - s.push.stack.size = s.revision - s.size ∧
      ∀ (i : Nat) (x : session_type), s.m_sessions[i]? = some x →
        s.push.stack.m_sessions[i]? = some x ∧
        assigned_revision s.push.stack i = assigned_revision s i) ∧
    (s.undo.stack.revision - s.undo.stack.size = s.revision - s.size ∧
      ∀ (i : Nat) (x : session_type), s.undo.stack.m_sessions[i]? = some x →
        s.m_sessions[i]? = some x ∧
        assigned_revision s.undo.stack i = assigned_revision s i) ∧
    (s.squash.stack.revision - s.squash.stack.size = s.revision - s.size ∧
      ∀ (i : Nat) (x : session_type), s.squash.stack.m_sessions[i]? = some x →
        s.m_sessions[i]? = some x ∧
        assigned_revision s.squash.stack i = assigned_revision s i) ∧
    ∀ (t : Int) (r : outcome), s.commit t = Except.ok r →
      r.stack.revision = s.revision ∧ r.stack.size ≤ s.size ∧
      r.stack.revision - r.stack.size = s.revision - s.size + ((s.size - r.stack.size : Nat) : Int) ∧
      ∀ (j : Nat) (y : session_type), r.stack.m_sessions[j]? = some y →
        ∃ x, s.m_sessions[(s.size - r.stack.size) + j]? = some x ∧ x.addr = y.addr ∧
          assigned_revision r.stack j = assigned_revision s ((s.size - r.stack.size) + j) := by
  have hdrop : ∀ (i : Nat) (x : session_type), s.m_sessions.dropLast[i]? = some x →
      s.m_sessions[i]? = some x := by
    intro i x hx
    rw [List.getElem?_dropLast] at hx
    split_ifs at hx
    exact hx
  refine ⟨?_, ?_, ?_, ?_⟩
  · obtain ⟨x, hx, -⟩ := push_sessions s
    rw [hx]
    have hsz : (s.m_sessions ++ [x]).length = s.m_sessions.length + 1 := by simp
    refine ⟨?_, fun i y hy => ⟨?_, ?_⟩⟩
    · simp only [undo_stack.revision, undo_stack.size, hsz]
      push_cast
      ring
    · have hi : i < s.m_sessions.length := (List.getElem?_eq_some.mp hy).1
      simp only
      rw [List.getElem?_append_left hi]
      exact hy
    · simp only [assigned_revision, undo_stack.size, hsz]
      push_cast
      ring
  · rw [undo_eq]
    by_cases he : s.m_sessions = []
    · rw [if_pos he]
      exact ⟨rfl, fun i x hx => ⟨hx, rfl⟩⟩
    · rw [if_neg he]
      have hn : 0 < s.m_sessions.length := List.length_pos.mpr he
      refine ⟨?_, fun i x hx => ⟨hdrop i x hx, ?_⟩⟩
      · simp only [undo_stack.revision, undo_stack.size, List.length_dropLast]
        omega
      · simp only [assigned_revision, undo_stack.size, List.length_dropLast]
        omega
  · rw [squash_eq]
    by_cases he : s.m_sessions = []
    · rw [if_pos he]
      exact ⟨rfl, fun i x hx => ⟨hx, rfl⟩⟩
    · rw [if_neg he]
      have hn : 0 < s.m_sessions.length := List.length_pos.mpr he
      refine ⟨?_, fun i x hx => ⟨hdrop i x hx, ?_⟩⟩
      · simp only [undo_stack.revision, undo_stack.size, List.length_dropLast]
        omega
      · simp only [assigned_revision, undo_stack.size, List.length_dropLast]
        omega
  · intro t r h
    obtain ⟨hrev, hle, hpos⟩ := commit_positions s t r h
    refine ⟨hrev, hle, ?_, fun j y hy => ?_⟩
    · simp only [undo_stack.revision, hrev]
      omega
    · obtain ⟨x, hx, hxy⟩ := hpos j y hy
      refine ⟨x, hx, hxy, ?_⟩
      simp only [assigned_revision, hrev]
      push_cast
      omega

/-! ## The bound of the counter -/

theorem step_size_le (s : undo_stack) (o : op) (r : outcome)
    (hs : (s.size : Int) ≤ s.m_revision) (h : step s o = Except.ok r) :
    (r.stack.size : Int) ≤ r.stack.m_revision := by
  unfold undo_stack.size at hs ⊢
  cases o with
  | push =>
    obtain ⟨x, hx, -⟩ := push_sessions s
    simp only [step, Except.ok.injEq] at h
    rw [← h, hx]
    simp only [List.length_append, List.length_singleton]
    push_cast
    omega
  | undo =>
    simp only [step, Except.ok.injEq] at h
    rw [← h, undo_eq]
    by_cases he : s.m_sessions = []
    · rw [if_pos he]; exact hs
    · have hn : 0 < s.m_sessions.length := List.length_pos.mpr he
      rw [if_neg he]
      simp only [List.length_dropLast]
      omega
  | squash =>
    simp only [step, Except.ok.injEq] at h
    rw [← h, squash_eq]
    by_cases he : s.m_sessions = []
    · rw [if_pos he]; exact hs
    · have hn : 0 < s.m_sessions.length := List.length_pos.mpr he
      rw [if_neg he]
      simp only [List.length_dropLast]
      omega
  | commit t =>
    obtain ⟨hrev, hle, -⟩ := commit_positions s t r h
    unfold undo_stack.size at hle
    omega
  | revision v =>
    simp only [step, Except.ok.injEq] at h
    rw [← h]
    simp only [set_revision_sessions]
    unfold set_revision
    split_ifs with h1 h2
    · exact hs
    · exact hs
    · simp only
      omega

theorem run_size_le (os : List op) (s : undo_stack) (r : outcome)
    (hs : (s.size : Int) ≤ s.m_revision) (h : run s os = Except.ok r) :
    (r.stack.size : Int) ≤ r.stack.m_revision := by
  induction os generalizing s r with
  | nil =>
    simp only [run, Except.ok.injEq] at h
    rw [← h]; exact hs
  | cons o os ih =>
    obtain ⟨r1, r2, h1, h2, h3, -⟩ := run_cons s o os r h
    rw [h3]
    exact ih r1.stack r2 (step_size_le s o r1 hs h1) h2

/-- C18: in every state reached from a freshly constructed stack by a sequence of `push`,
`undo`, `squash`, `commit(t)` and `revision(v)` calls, `0 <= size() <= revision()`: the
revision assigned to the bottom session, `revision() - size() + 1`, is at least 1 and the
counter is not negative. -/
theorem counter_bound (os : List op) (r : outcome)
    (h : run undo_stack.init os = Except.ok r) :
    0 ≤ r.stack.size ∧ (r.stack.size : Int) ≤ r.stack.revision ∧
      1 ≤ r.stack.revision - r.stack.size + 1 ∧ 1 ≤ assigned_revision r.stack 0 ∧
      0 ≤ r.stack.revision := by
  have hle := run_size_le os undo_stack.init r (by decide) h
  unfold undo_stack.revision assigned_revision
  refine ⟨Nat.zero_le _, hle, ?_, ?_, ?_⟩
  · omega
  · push_cast; omega
  · omega

/-- The bound of C18 after `revision(7)` and `bookkeeping_ops` on the fresh stack: one
session, the counter 9. -/
theorem counter_bound_witness :
    run undo_stack.init (op.revision 7 :: bookkeeping_ops) = Except.ok bookkeeping_outcome ∧
    (0 ≤ bookkeeping_outcome.stack.size ∧
      (bookkeeping_outcome.stack.size : Int) ≤ bookkeeping_outcome.stack.revision ∧
      1 ≤ bookkeeping_outcome.stack.revision - bookkeeping_outcome.stack.size + 1 ∧
      1 ≤ assigned_revision bookkeeping_outcome.stack 0 ∧
      0 ≤ bookkeeping_outcome.stack.revision) :=
  ⟨rfl, counter_bound (op.revision 7 :: bookkeeping_ops) bookkeeping_outcome rfl⟩

/-! ## The mixed-width expression of `commit` -/

/-- C19: for an `int64_t` counter `r` and a size `n` below `2 ^ 63` such that the integer
`r - n + 1` is a value of `int64_t`, the `initial_revision` of `commit`, computed with `r`
converted to `uint64_t`, the subtraction and the addition modulo `2 ^ 64` and the result
cast back to `int64_t`, is the integer `r - n + 1`. -/
theorem initial_revision_exact (r : Int) (n : Nat) (hr : is_int64 r) (_hn : (n : Int) < 2 ^ 63)
    (h : is_int64 (r - n + 1)) :
    initial_revision r n = r - n + 1 ∧
      as_int64 ((as_uint64 r - n + 1) % 2 ^ 64) = r - n + 1 := by
  obtain ⟨h1, h2⟩ := h
  obtain ⟨h3, h4⟩ := hr
  unfold initial_revision as_int64 as_uint64
  norm_num at h1 h2 h3 h4 ⊢
  constructor <;> split_ifs <;> omega

/-- The expression of C19 at the counter 0 with 5 sessions: the unsigned difference wraps
to `2 ^ 64 - 5`, and the value cast back is `-4`. -/
theorem initial_revision_exact_witness :
    is_int64 0 ∧ ((5 : Nat) : Int) < 2 ^ 63 ∧ is_int64 (0 - (5 : Nat) + 1) ∧
    as_uint64 (as_uint64 0 - as_uint64 (5 : Nat)) = 2 ^ 64 - 5 ∧
    (initial_revision 0 5 = 0 - (5 : Nat) + 1 ∧
      as_int64 ((as_uint64 0 - (5 : Nat) + 1) % 2 ^ 64) = 0 - (5 : Nat) + 1) :=
  ⟨by decide, by decide, by decide, by decide,
    initial_revision_exact 0 5 (by decide) (by decide) (by decide)⟩

/-! ## The counter in two's complement -/

theorem as_int64_eq (x : Int) (h : is_int64 x) : as_int64 x = x := by
  obtain ⟨h1, h2⟩ := h
  unfold as_int64
  norm_num at h1 h2 ⊢
  split_ifs <;> omega

theorem push_int64_eq (s : undo_stack) (h : is_int64 (s.m_revision + 1)) :
    s.push_int64 = s.push := by
  unfold push_int64 push
  rw [as_int64_eq _ h]

theorem undo_int64_eq (s : undo_stack) (h : s.m_sessions ≠ [] → is_int64 (s.m_revision - 1)) :
    s.undo_int64 = s.undo := by
  unfold undo_int64 undo
  cases hl : s.m_sessions.getLast? with
  | none => rfl
  | some b =>
    have hne : s.m_sessions ≠ [] := by
      intro e; rw [e] at hl; simp at hl
    simp only [as_int64_eq _ (h hne)]

theorem squash_int64_eq (s : undo_stack) (h : s.m_sessions ≠ [] → is_int64 (s.m_revision - 1)) :
    s.squash_int64 = s.squash := by
  unfold squash_int64 squash
  cases hl : s.m_sessions.getLast? with
  | none => rfl
  | some b =>
    have hne : s.m_sessions ≠ [] := by
      intro e; rw [e] at hl; simp at hl
    simp only [as_int64_eq _ (h hne)]

/-- While the counter is a value of `int64_t` with at least `size()` values of `int64_t`
below it, a call that is no `push()` at `INT64_MAX` does with the counter in two's complement
what it does with the counter as an integer. -/
theorem step_int64_eq (s : undo_stack) (o : op) (hr : is_int64 s.m_revision)
    (hb : -2 ^ 63 ≤ s.m_revision - s.size) (hp : o = op.push → s.m_revision + 1 < 2 ^ 63) :
    step_int64 s o = step s o := by
  obtain ⟨h1, h2⟩ := hr
  have hdec : s.m_sessions ≠ [] → is_int64 (s.m_revision - 1) := by
    intro hne
    have hn : 0 < s.m_sessions.length := List.length_pos.mpr hne
    unfold undo_stack.size at hb
    constructor <;> omega
  cases o with
  | push =>
    have := hp rfl
    simp only [step_int64, step]
    rw [push_int64_eq s ⟨by omega, this⟩]
  | undo => simp only [step_int64, step]; rw [undo_int64_eq s hdec]
  | squash => simp only [step_int64, step]; rw [squash_int64_eq s hdec]
  | commit t => rfl
  | revision v => rfl

/-- A call other than the setter, and no `push()` at `INT64_MAX`, keeps the counter a value of
`int64_t` with at least `size()` values of `int64_t` below it. -/
theorem step_keeps_range (s : undo_stack) (o : op) (r : outcome) (hr : is_int64 s.m_revision)
    (hb : -2 ^ 63 ≤ s.m_revision - s.size) (hp : o = op.push → s.m_revision + 1 < 2 ^ 63)
    (ho : o.is_revision = false) (h : step s o = Except.ok r) :
    is_int64 r.stack.m_revision ∧ -2 ^ 63 ≤ r.stack.m_revision - r.stack.size := by
  obtain ⟨h1, h2⟩ := hr
  unfold is_int64
  unfold undo_stack.size at hb ⊢
  cases o with
  | push =>
    have := hp rfl
    obtain ⟨x, hx, -⟩ := push_sessions s
    simp only [step, Except.ok.injEq] at h
    rw [← h, hx]
    simp only [List.length_append, List.length_singleton]
    push_cast
    omega
  | undo =>
    simp only [step, Except.ok.injEq] at h
    rw [← h, undo_eq]
    by_cases he : s.m_sessions = []
    · rw [if_pos he]; simp only; omega
    · have hn : 0 < s.m_sessions.length := List.length_pos.mpr he
      rw [if_neg he]
      simp only [List.length_dropLast]
      omega
  | squash =>
    simp only [step, Except.ok.injEq] at h
    rw [← h, squash_eq]
    by_cases he : s.m_sessions = []
    · rw [if_pos he]; simp only; omega
    · have hn : 0 < s.m_sessions.length := List.length_pos.mpr he
      rw [if_neg he]
      simp only [List.length_dropLast]
      omega
  | commit t =>
    obtain ⟨hrev, hle, -⟩ := commit_positions s t r h
    unfold undo_stack.size at hle
    omega
  | revision v => simp [op.is_revision] at ho

/-- Refinement: a sequence without the setter in which no `push()` is called at `INT64_MAX`
runs with the counter in two's complement as it runs with the counter as an integer. -/
theorem run_int64_eq (os : List op) (s : undo_stack) (hr : is_int64 s.m_revision)
    (hb : -2 ^ 63 ≤ s.m_revision - s.size) (ho : ∀ o ∈ os, o.is_revision = false)
    (hp : push_in_range s os = true) :
    run_int64 s os = run s os ∧ removals_int64 s os = removals s os := by
  induction os generalizing s with
  | nil => exact ⟨rfl, rfl⟩
  | cons o os ih =>
    simp only [push_in_range, Bool.and_eq_true] at hp
    obtain ⟨hp1, hp2⟩ := hp
    have hpush : o = op.push → s.m_revision + 1 < 2 ^ 63 := by
      intro e
      simpa [e] using hp1
    have hstep := step_int64_eq s o hr hb hpush
    rw [hstep] at hp2
    simp only [run_int64, run, removals_int64, removals, hstep]
    cases h1 : step s o with
    | error e => simp
    | ok r1 =>
      rw [h1] at hp2
      obtain ⟨hr', hb'⟩ := step_keeps_range s o r1 hr hb hpush
        (ho o (List.mem_cons_self _ _)) h1
      obtain ⟨e1, e2⟩ := ih r1.stack hr' hb'
        (fun o' ho' => ho o' (List.mem_cons_of_mem _ ho')) hp2
      simp only [e1, e2, and_self]

theorem push_n_int64_eq (n : Nat) (s : undo_stack) (hr : is_int64 s.m_revision)
    (h : s.m_revision + n < 2 ^ 63) : push_n_int64 n s = push_n n s := by
  induction n generalizing s with
  | zero => rfl
  | succ n ih =>
    obtain ⟨h1, h2⟩ := hr
    push_cast at h
    have e := push_int64_eq s ⟨by omega, by omega⟩
    obtain ⟨x, hx, -⟩ := push_sessions s
    rw [push_n_int64, push_n, e]
    refine ih s.push.stack ?_ ?_
    · rw [hx]; exact ⟨by simp only; omega, by simp only; omega⟩
    · rw [hx]; simp only; omega

/-! ## The revision counter without overflow -/

/-- C7 as stated fails: on the empty stack whose counter is `INT64_MAX`, one `push()` leaves
`revision() == INT64_MIN`, not `INT64_MAX` plus the one push. -/
theorem revision_bookkeeping_overflow :
    (∀ o ∈ [op.push], o.is_revision = false) ∧
    ∃ r, run_int64 { m_revision := int64_max, m_sessions := [] } [op.push] = Except.ok r ∧
      r.stack.revision = int64_min ∧
      r.stack.revision ≠
        int64_max + pushes [op.push]
          - removals_int64 { m_revision := int64_max, m_sessions := [] } [op.push] :=
  ⟨by decide, _, rfl, rfl, by decide⟩

/-- C7, amended: after a sequence of `push`, `undo`, `squash` and `commit(t)` calls on an
empty stack whose counter is the `int64_t` value `r0`, in which no `push()` is called with
the counter at `INT64_MAX`, `revision()` is `r0` plus the number of `push` calls minus the
number of `undo` and `squash` calls that removed a session; `commit` calls count for
nothing. -/
theorem revision_bookkeeping (r0 : Int) (os : List op) (r : outcome) (h0 : is_int64 r0)
    (ho : ∀ o ∈ os, o.is_revision = false)
    (hp : push_in_range { m_revision := r0, m_sessions := [] } os = true)
    (h : run_int64 { m_revision := r0, m_sessions := [] } os = Except.ok r) :
    r.stack.revision =
      r0 + pushes os - removals_int64 { m_revision := r0, m_sessions := [] } os := by
  obtain ⟨e1, e2⟩ := run_int64_eq os { m_revision := r0, m_sessions := [] } h0
    (by simpa [undo_stack.size] using h0.1) ho hp
  rw [e1] at h
  rw [e2]
  exact run_revision os _ r h ho

/-- The bookkeeping of C7 on `bookkeeping_ops` from the counter 7: four pushes, two removals
(the commit removes a session and counts for nothing), the counter is 9. -/
theorem revision_bookkeeping_witness :
    is_int64 7 ∧ (∀ o ∈ bookkeeping_ops, o.is_revision = false) ∧
    push_in_range { m_revision := 7, m_sessions := [] } bookkeeping_ops = true ∧
    run_int64 { m_revision := 7, m_sessions := [] } bookkeeping_ops
      = Except.ok bookkeeping_outcome ∧
    pushes bookkeeping_ops = 4 ∧
    removals_int64 { m_revision := 7, m_sessions := [] } bookkeeping_ops = 2 ∧
    bookkeeping_outcome.stack.revision =
      7 + pushes bookkeeping_ops
        - removals_int64 { m_revision := 7, m_sessions := [] } bookkeeping_ops :=
  ⟨by decide, by decide, rfl, rfl, rfl, rfl,
    revision_bookkeeping 7 bookkeeping_ops bookkeeping_outcome (by decide) (by decide) rfl rfl⟩

/-- C8 as stated fails: one `push()` on the empty stack whose counter is `INT64_MAX`, the
stack `revision(INT64_MAX)` leaves of a fresh one, gives `revision() == INT64_MIN`, not
`INT64_MAX + 1`. -/
theorem push_n_overflow :
    undo_stack.init.set_revision int64_max = { m_revision := int64_max, m_sessions := [] } ∧
    (push_n_int64 1 { m_revision := int64_max, m_sessions := [] }).revision = int64_min ∧
    (push_n_int64 1 { m_revision := int64_max, m_sessions := [] }).revision
      ≠ int64_max + ((1 : Nat) : Int) :=
  ⟨rfl, rfl, by decide⟩

/-- C8, amended: `n` consecutive calls of `push()` on an empty stack whose counter is the
`int64_t` value `r0`, with `r0 + n` not above `INT64_MAX`, leave `revision() == r0 + n` and
`size() == n`.  Scenario A: three pushes on a fresh stack leave `size() == 3` and
`revision() == 3`.  Scenario D: `revision(10)` on a fresh stack and one push leave
`revision() == 11`. -/
theorem push_n_revision (r0 : Int) (n : Nat) (h0 : is_int64 r0) (h : r0 + n ≤ int64_max) :
    ((push_n_int64 n { m_revision := r0, m_sessions := [] }).revision = r0 + n ∧
      (push_n_int64 n { m_revision := r0, m_sessions := [] }).size = n) ∧
    ((push_n_int64 3 undo_stack.init).size = 3 ∧
      (push_n_int64 3 undo_stack.init).revision = 3) ∧
    (undo_stack.init.set_revision 10).push_int64.stack.revision = 11 := by
  refine ⟨?_, ⟨rfl, rfl⟩, rfl⟩
  have hlt : r0 + n < 2 ^ 63 := by
    unfold int64_max at h
    omega
  rw [push_n_int64_eq n { m_revision := r0, m_sessions := [] } h0 hlt]
  obtain ⟨h1, h2⟩ := push_n_eq n { m_revision := r0, m_sessions := [] }
  exact ⟨h1, by simpa [undo_stack.size] using h2⟩

/-- The pushes of C8 up to the bound: two pushes from the counter `INT64_MAX - 2` leave
`revision() == INT64_MAX` and `size() == 2`. -/
theorem push_n_revision_witness :
    is_int64 (int64_max - 2) ∧ int64_max - 2 + ((2 : Nat) : Int) ≤ int64_max ∧
    (push_n_int64 2 { m_revision := int64_max - 2, m_sessions := [] }).revision = int64_max ∧
    (((push_n_int64 2 { m_revision := int64_max - 2, m_sessions := [] }).revision
        = int64_max - 2 + ((2 : Nat) : Int) ∧
      (push_n_int64 2 { m_revision := int64_max - 2, m_sessions := [] }).size = 2) ∧
    ((push_n_int64 3 undo_stack.init).size = 3 ∧
      (push_n_int64 3 undo_stack.init).revision = 3) ∧
    (undo_stack.init.set_revision 10).push_int64.stack.revision = 11) :=
  ⟨by decide, by decide, rfl, push_n_revision (int64_max - 2) 2 (by decide) (by decide)⟩

/-! ## Assigned revisions without overflow -/

/-- C17 as stated fails: on the stack `revision(INT64_MAX - 1); push()` leaves of a fresh
one (one session, of assigned revision `INT64_MAX`), a `push()` keeps that session at
position 0 but its assigned revision becomes `INT64_MIN - 1`, and `revision() - size()` goes
from `INT64_MAX - 1` to `INT64_MIN - 2`.  An `undo()` right after it, called with the
counter at `INT64_MIN`, changes `revision() - size()` as well. -/
theorem assigned_revision_overflow :
    stack_at_max = { m_revision := int64_max, m_sessions := [⟨1, parent_ref.head⟩] } ∧
    stack_at_max.m_sessions[0]? = some ⟨1, parent_ref.head⟩ ∧
    stack_at_max.push_int64.stack.m_sessions[0]? = some ⟨1, parent_ref.head⟩ ∧
    assigned_revision stack_at_max 0 = int64_max ∧
    assigned_revision stack_at_max.push_int64.stack 0 = int64_min - 1 ∧
    assigned_revision stack_at_max.push_int64.stack 0 ≠ assigned_revision stack_at_max 0 ∧
    stack_at_max.push_int64.stack.revision - stack_at_max.push_int64.stack.size
      ≠ stack_at_max.revision - stack_at_max.size ∧
    stack_at_max.push_int64.stack.revision = int64_min ∧
    stack_at_max.push_int64.stack.undo_int64.stack.revision
        - stack_at_max.push_int64.stack.undo_int64.stack.size
      ≠ stack_at_max.push_int64.stack.revision - stack_at_max.push_int64.stack.size :=
  ⟨rfl, rfl, rfl, by decide, by decide, by decide, by decide, rfl, by decide⟩

/-- C17, amended: with the assigned revision of the session at position `i` defined as
`revision() - size() + 1 + i`, a `push()` called with the counter below `INT64_MAX`, an
`undo()` and a `squash()` called with the counter above `INT64_MIN` when they remove a
session, and a returning `commit(t)` keep the assigned revision of every session that stays
in the sequence.  `push`, `undo` and `squash` keep the sessions at their positions and leave
`revision() - size()` as it is; `commit` leaves `revision()` as it is, moves the session at
position `k + j` to position `j`, `k` being the number of sessions it removes, and
`revision() - size()` grows by `k`. -/
theorem assigned_revision_stable (s : undo_stack) (hr : is_int64 s.m_revision) :
    (s.m_revision < int64_max →
      s.push_int64.stack.revision - s.push_int64.stack.size = s.revision - s.size ∧
      ∀ (i : Nat) (x : session_type), s.m_sessions[i]? = some x →
        s.push_int64.stack.m_sessions[i]? = some x ∧
        assigned_revision s.push_int64.stack i = assigned_revision s i) ∧
    ((s.empty = false → int64_min < s.m_revision) →
      s.undo_int64.stack.revision - s.undo_int64.stack.size = s.revision - s.size ∧
      ∀ (i : Nat) (x : session_type), s.undo_int64.stack.m_sessions[i]? = some x →
        s.m_sessions[i]? = some x ∧
        assigned_revision s.undo_int64.stack i = assigned_revision s i) ∧
    ((s.empty = false → int64_min < s.m_revision) →
      s.squash_int64.stack.revision - s.squash_int64.stack.size = s.revision - s.size ∧
      ∀ (i : Nat) (x : session_type), s.squash_int64.stack.m_sessions[i]? = some x →
        s.m_sessions[i]? = some x ∧
        assigned_revision s.squash_int64.stack i = assigned_revision s i) ∧
    ∀ (t : Int) (r : outcome), s.commit t = Except.ok r →
      r.stack.revision = s.revision ∧ r.stack.size ≤ s.size ∧
      r.stack.revision - r.stack.size = s.revision - s.size + ((s.size - r.stack.size : Nat) : Int) ∧
      ∀ (j : Nat) (y : session_type), r.stack.m_sessions[j]? = some y →
        ∃ x, s.m_sessions[(s.size - r.stack.size) + j]? = some x ∧ x.addr = y.addr ∧
          assigned_revision r.stack j = assigned_revision s ((s.size - r.stack.size) + j) := by
  obtain ⟨hpush, hundo, hsquash, hcommit⟩ := assigned_revision_integer s
  obtain ⟨h1, h2⟩ := hr
  have hdec : (s.empty = false → int64_min < s.m_revision) →
      s.m_sessions ≠ [] → is_int64 (s.m_revision - 1) := by
    intro h hne
    have := h (by simpa [undo_stack.empty] using hne)
    unfold int64_min at this
    constructor <;> omega
  refine ⟨fun h => ?_, fun h => ?_, fun h => ?_, hcommit⟩
  · unfold int64_max at h
    rw [push_int64_eq s ⟨by omega, by omega⟩]
    exact hpush
  · rw [undo_int64_eq s (hdec h)]
    exact hundo
  · rw [squash_int64_eq s (hdec h)]
    exact hsquash

/-- The stable assignment of C17 on the stack with sessions at revisions 1, 2, 3: a push
keeps the session of revision 2 at position 1, and `commit(1)` removes one session, leaves
the counter 3 and moves the session of revision 2 from position 1 to position 0. -/
theorem assigned_revision_stable_witness :
    is_int64 scenario_b.m_revision ∧ scenario_b.m_revision < int64_max ∧
    scenario_b.m_sessions[1]? = some ⟨2, parent_ref.session 1⟩ ∧
    (scenario_b.push_int64.stack.m_sessions[1]? = some ⟨2, parent_ref.session 1⟩ ∧
      assigned_revision scenario_b.push_int64.stack 1 = assigned_revision scenario_b 1) ∧
    assigned_revision scenario_b 1 = 2 ∧
    ∃ r, scenario_b.commit 1 = Except.ok r ∧
      r.stack.m_sessions = [⟨2, parent_ref.head⟩, ⟨3, parent_ref.session 2⟩] ∧
      scenario_b.size - r.stack.size = 1 ∧ assigned_revision r.stack 0 = 2 ∧
      r.stack.revision = scenario_b.revision ∧ r.stack.size ≤ scenario_b.size :=
  ⟨by decide, by decide, rfl,
    ((assigned_revision_stable scenario_b (by decide)).1 (by decide)).2 1 _ rfl, rfl,
    { stack := { m_revision := 3,
                 m_sessions := [⟨2, parent_ref.head⟩, ⟨3, parent_ref.session 2⟩] },
      calls := [call.commit ⟨2, parent_ref.session 1⟩, call.commit ⟨1, parent_ref.head⟩,
        call.attach ⟨2, parent_ref.session 1⟩ parent_ref.head] },
    rfl, rfl, rfl, rfl,
    ((assigned_revision_stable scenario_b (by decide)).2.2.2 1 _ rfl).1,
    ((assigned_revision_stable scenario_b (by decide)).2.2.2 1 _ rfl).2.1⟩

/-! ## Idempotence of `commit` -/

/-- C16: performing `commit(t)` twice in a row has the outcome of performing it once, the
same counter, the same sessions and the same calls on sessions, so the second call makes no
`commit()` and no `attach()`: whenever the first call returns, the second returns the stack
the first one left and makes no call at all.  (Where the first call ends in the access
outside the deque, so does the sequence of two.) -/
theorem commit_twice_same (s : undo_stack) (t : Int) (hr : in_range s) :
    run s [op.commit t, op.commit t] = run s [op.commit t] ∧
      run_int64 s [op.commit t, op.commit t] = run_int64 s [op.commit t] ∧
      ∀ r, s.commit t = Except.ok r →
        r.stack.commit t = Except.ok { stack := r.stack, calls := [] } := by
  have h2 : ∀ r, s.commit t = Except.ok r →
      r.stack.commit t = Except.ok { stack := r.stack, calls := [] } :=
    fun r h => commit_again s t r hr h
  refine ⟨?_, ?_, h2⟩
  · cases h : s.commit t with
    | error e => simp [run, step, h]
    | ok r => simp [run, step, h, h2 r h]
  · cases h : s.commit t with
    | error e => simp [run_int64, step_int64, h]
    | ok r => simp [run_int64, step_int64, h, h2 r h]

/-- Idempotence (C16) on the stack with sessions at revisions 1, 2, 3 and the target 1: the
first call removes the bottom session, the second returns at once. -/
theorem commit_twice_same_witness :
    in_range scenario_b ∧
    scenario_b.commit 1 = Except.ok
      { stack := { m_revision := 3,
                   m_sessions := [⟨2, parent_ref.head⟩, ⟨3, parent_ref.session 2⟩] },
        calls := [call.commit ⟨2, parent_ref.session 1⟩, call.commit ⟨1, parent_ref.head⟩,
          call.attach ⟨2, parent_ref.session 1⟩ parent_ref.head] } ∧
    run scenario_b [op.commit 1, op.commit 1] = run scenario_b [op.commit 1] ∧
    ({ m_revision := 3,
       m_sessions := [⟨2, parent_ref.head⟩, ⟨3, parent_ref.session 2⟩] } : undo_stack).commit 1
      = Except.ok
        { stack := { m_revision := 3,
                     m_sessions := [⟨2, parent_ref.head⟩, ⟨3, parent_ref.session 2⟩] },
          calls := [] } :=
  ⟨by decide, rfl, (commit_twice_same scenario_b 1 (by decide)).1,
    (commit_twice_same scenario_b 1 (by decide)).2.2 _ rfl⟩

/-! ## The round trip in two's complement -/

/-- With the counter in two's complement `undo()` right after `push()` restores every stack
whose counter is a value of `int64_t`, at `INT64_MAX` too: the increment wraps to
`INT64_MIN` and the decrement wraps back.  Neither call invokes `commit()` on a session. -/
theorem push_undo_int64 (s : undo_stack) (hr : is_int64 s.m_revision) :
    s.push_int64.stack.undo_int64.stack = s ∧
      ∀ c ∈ s.push_int64.calls ++ s.push_int64.stack.undo_int64.calls, c.is_commit = false := by
  have hx : ∃ x, s.push_int64 =
      { stack := { m_revision := as_int64 (s.m_revision + 1), m_sessions := s.m_sessions ++ [x] },
        calls := [call.construct x] } := by
    unfold push_int64
    cases s.m_sessions.getLast? with
    | none => exact ⟨_, rfl⟩
    | some b => exact ⟨_, rfl⟩
  obtain ⟨x, hx⟩ := hx
  have hback : as_int64 (as_int64 (s.m_revision + 1) - 1) = s.m_revision := by
    obtain ⟨h1, h2⟩ := hr
    unfold as_int64
    norm_num at h1 h2 ⊢
    split_ifs <;> omega
  have hu : s.push_int64.stack.undo_int64 = { stack := s, calls := [call.detach x] } := by
    rw [hx]
    unfold undo_int64
    simp only [List.getLast?_concat, List.dropLast_concat, hback]
  rw [hu]
  refine ⟨rfl, fun c hc => ?_⟩
  rw [hx] at hc
  simp only [List.mem_append, List.mem_singleton] at hc
  rcases hc with rfl | rfl <;> rfl

/-- The round trip at the counter `INT64_MAX`: the push leaves `INT64_MIN`, the undo
`INT64_MAX` again. -/
theorem push_undo_int64_witness :
    is_int64 int64_max ∧
    ({ m_revision := int64_max, m_sessions := [] } : undo_stack).push_int64.stack.revision
      = int64_min ∧
    (({ m_revision := int64_max, m_sessions := [] } : undo_stack).push_int64.stack.undo_int64.stack
        = { m_revision := int64_max, m_sessions := [] } ∧
      ∀ c ∈ ({ m_revision := int64_max, m_sessions := [] } : undo_stack).push_int64.calls
          ++ ({ m_revision := int64_max, m_sessions := [] }
              : undo_stack).push_int64.stack.undo_int64.calls,
        c.is_commit = false) :=
  ⟨by decide, rfl, push_undo_int64 { m_revision := int64_max, m_sessions := [] } (by decide)⟩

end eosio.session
